import Mathlib

/-!
A 4x4 sliding-tile game: row transform, board moves, spawn and undo.

Shallow embedding of `starter.cpp`.

* `std::vector<int>` is a `List Int`, the board `std::vector<std::vector<int>>`
  a `List (List Int)`; the game only ever builds 4x4 boards (`isBoard`).
* C++ `int` is a 32-bit two's-complement integer. The two places that compute
  with cells, `row[i] *= 2` and `score += val`, are taken modulo `2^32`
  (`wrap32`), as the compiled program does; within the range of `int` this is
  the exact result. Cells are `Int` values; those of the program lie in
  `-2^31 .. 2^31 - 1`.
* Indexing out of range is undefined in C++; the embedding reads a default
  there, and every statement below is about rows of 4 cells and 4x4 boards,
  where no such access happens.
* The two draws of `spawn_tile` from the generator are arguments.
-/

namespace Game2048

/-- The `std::vector<int>::resize(n, x)` operation: cut to `n` elements or pad with `x`. -/
def resize (v : List Int) (n : Nat) (x : Int) : List Int :=
  v.take n ++ List.replicate (n - v.length) x

/-- The function `compress_row`: push the non-zero values of the row, in
order, then resize to the length of the row with zeros. -/
def compress_row (row : List Int) : List Int :=
  let compressed := row.foldl (fun (acc : List Int) val => if val ≠ 0 then acc ++ [val] else acc) []
  resize compressed row.length 0

/-- The value of a 32-bit two's-complement `int` that holds `x` modulo `2^32`. -/
def wrap32 (x : Int) : Int :=
  (x + 2147483648) % 4294967296 - 2147483648

/-- One iteration of the loop body of `merge_row` at index `i`; the doubling
`row[i] *= 2` is that of a 32-bit `int`. -/
def mergeStep (row : List Int) (i : Nat) : List Int :=
  if row.getD i 0 ≠ 0 ∧ row.getD i 0 = row.getD (i + 1) 0 then
    (row.set i (wrap32 (row.getD i 0 * 2))).set (i + 1) 0
  else row

/-- The loop `for (i = 0; i < row.size() - 1; i++)` of `merge_row`. The row
keeps its length through the loop, so the bound is that of the row on entry.
(On an empty row the unsigned bound of the source wraps around; the rows of
the program have 4 cells.) -/
def mergeLoop (row : List Int) : List Int :=
  (List.range (row.length - 1)).foldl mergeStep row

/-- The function `merge_row`: compress, merge adjacent equal values, compress again. -/
def merge_row (row : List Int) : List Int :=
  compress_row (mergeLoop (compress_row row))

/-- The board: `std::vector<std::vector<int>>`, a list of rows. -/
abbrev Board := List (List Int)

/-- The boards the program builds: 4 rows of 4 cells (`board(4, vector<int>(4,0))`). -/
def isBoard (board : Board) : Prop :=
  board.length = 4 ∧ ∀ row ∈ board, row.length = 4

instance (board : Board) : Decidable (isBoard board) := by
  unfold isBoard; exact inferInstance

/-- The cell `board[r][c]`. -/
def cell (board : Board) (r c : Nat) : Int :=
  (board.getD r []).getD c 0

/-- The assignment `board[r][c] = x`. -/
def setCell (board : Board) (r c : Nat) (x : Int) : Board :=
  board.set r ((board.getD r []).set c x)

/-- The function `move_left`: every row is replaced by its `merge_row`; the
flag records whether some row changed. The result is `(moved, board)`. -/
def move_left (board : Board) : Bool × Board :=
  (List.range board.length).foldl
    (fun (st : Bool × Board) r =>
      let old_row := st.2.getD r []
      let row := merge_row old_row
      (if old_row ≠ row then true else st.1, st.2.set r row))
    (false, board)

/-- The function `move_right`: every row is reversed, merged and reversed back. -/
def move_right (board : Board) : Bool × Board :=
  (List.range board.length).foldl
    (fun (st : Bool × Board) r =>
      let old_row := st.2.getD r []
      let row := (merge_row old_row.reverse).reverse
      (if old_row ≠ row then true else st.1, st.2.set r row))
    (false, board)

/-- The inner loop `for (row = 0; row < 4; row++) column.push_back(board[row][col])`. -/
def getColumn (board : Board) (col : Nat) : List Int :=
  (List.range 4).foldl (fun (column : List Int) row => column ++ [cell board row col]) []

/-- The inner loop `for (row = 0; row < 4; row++) board[row][col] = column[row]`. -/
def setColumn (board : Board) (col : Nat) (column : List Int) : Board :=
  (List.range 4).foldl (fun (b : Board) row => setCell b row col (column.getD row 0)) board

/-- The function `move_up`: each column is read top to bottom, merged, and
written back only when it differs from what was read. -/
def move_up (board : Board) : Bool × Board :=
  (List.range 4).foldl
    (fun (st : Bool × Board) col =>
      let column := getColumn st.2 col
      let new_column := merge_row column
      if new_column ≠ column then (true, setColumn st.2 col new_column) else st)
    (false, board)

/-- The function `move_down`: each column is read top to bottom, reversed,
compressed, merged and compressed by the loop written out in the function
body, reversed back, and written back only when it differs from what was read. -/
def move_down (board : Board) : Bool × Board :=
  (List.range 4).foldl
    (fun (st : Bool × Board) col =>
      let original := getColumn st.2 col
      let column := compress_row original.reverse
      let column := mergeLoop column
      let column := (compress_row column).reverse
      if column ≠ original then (true, setColumn st.2 col column) else st)
    (false, board)

/-- The scan of `spawn_tile` for empty cells, rows outside, columns inside. -/
def emptyCells (board : Board) : List (Nat × Nat) :=
  (List.range 4).foldl
    (fun (acc : List (Nat × Nat)) r =>
      (List.range 4).foldl
        (fun (acc : List (Nat × Nat)) c => if cell board r c = 0 then acc ++ [(r, c)] else acc)
        acc)
    []

/-- The function `spawn_tile`, with the two draws as arguments: `p` is the
value of `pos_dist(gen)`, drawn from `0 .. empty.size()-1`, and `v` the value of
`val_dist(gen)`, drawn from `1 .. 10`. -/
def spawn_tile (board : Board) (p : Nat) (v : Int) : Board :=
  let empty := emptyCells board
  if empty.isEmpty then board
  else
    let rc := empty.getD p (0, 0)
    setCell board rc.1 rc.2 (if v = 1 then 4 else 2)

/-- The state of the loop of `main`: the board and the `history` stack (top first). -/
structure State where
  board : Board
  history : List Board
deriving DecidableEq

/-- The dispatch of a command character to a move function; any other
character leaves `moved` false and the board as it is. -/
def moveCmd (cmd : Char) (board : Board) : Bool × Board :=
  if cmd = 'a' then move_left board
  else if cmd = 'd' then move_right board
  else if cmd = 'w' then move_up board
  else if cmd = 's' then move_down board
  else (false, board)

/-- The undo branch of the loop (`cmd == 'u'`). -/
def undoStep (s : State) : State :=
  match s.history with
  | [] => s
  | top :: rest => { board := top, history := rest }

/-- The move branch of the loop: snapshot, move, and when the move reports a
change push the snapshot and spawn a tile with draws `p` and `v`. -/
def moveStep (cmd : Char) (p : Nat) (v : Int) (s : State) : State :=
  let prev := s.board
  let res := moveCmd cmd s.board
  if res.1 then { board := spawn_tile res.2 p v, history := prev :: s.history }
  else { board := res.2, history := s.history }

/-- One iteration of the loop of `main` on command `cmd`; `none` when the loop ends (`'q'`). -/
def loopStep (cmd : Char) (p : Nat) (v : Int) (s : State) : Option State :=
  if cmd = 'q' then none
  else if cmd = 'u' then some (undoStep s)
  else some (moveStep cmd p v s)


/-! ## Rows: `compress_row`, the merge loop and `merge_row` -/

/-- The predicate `val != 0` as a boolean test. -/
def nonzero (x : Int) : Bool := decide (x ≠ 0)

/-- The merge loop read structurally, with the value `a` at the current index
held apart from the cells after it: `a` is merged with the next cell when both
are equal and non-zero, leaving a zero there, and the scan moves one cell on. -/
def mergeFrom (a : Int) : List Int → List Int
  | [] => [a]
  | b :: rest =>
      if a ≠ 0 ∧ a = b then wrap32 (a * 2) :: mergeFrom 0 rest
      else a :: mergeFrom b rest

/-- The merge loop on a whole row, read structurally. -/
def mergePairs : List Int → List Int
  | [] => []
  | a :: rest => mergeFrom a rest


/-- The greedy scan of the reference: when the first two remaining entries are
equal, twice that value is emitted and both are skipped; otherwise the first is
emitted and the scan goes on from the second. -/
def greedyMerge : List Int → List Int
  | [] => []
  | [a] => [a]
  | a :: b :: rest => if a = b then (2 * a) :: greedyMerge rest else a :: greedyMerge (b :: rest)

/-- The reference for `merge_row` on rows of 4: the non-zero entries in order,
scanned greedily, then padded with zeros to length 4. -/
def merge_row_ref (r : List Int) : List Int :=
  let out := greedyMerge (r.filter (fun x => decide (x ≠ 0)))
  out ++ List.replicate (4 - out.length) 0

/-- Whether some two adjacent entries of the row are equal and non-zero. -/
def hasEqualPair : List Int → Bool
  | [] => false
  | [_] => false
  | a :: b :: rest => (decide (a ≠ 0) && decide (a = b)) || hasEqualPair (b :: rest)


/-- The loop shared by `move_left` and `move_right`, with the row transform `f` as a parameter. -/
def moveRows (f : List Int → List Int) (board : Board) : Bool × Board :=
  (List.range board.length).foldl
    (fun (st : Bool × Board) r =>
      let old_row := st.2.getD r []
      let row := f old_row
      (if old_row ≠ row then true else st.1, st.2.set r row))
    (false, board)

/-- The body of the column loop shared by `move_up` and `move_down`, with the
column transform `f` as a parameter. -/
def colStep (f : List Int → List Int) (st : Bool × Board) (col : Nat) : Bool × Board :=
  if f (getColumn st.2 col) ≠ getColumn st.2 col then
    (true, setColumn st.2 col (f (getColumn st.2 col)))
  else st

/-- The column transform written out in the body of `move_down`. -/
def downColumn (original : List Int) : List Int :=
  (compress_row (mergeLoop (compress_row original.reverse))).reverse

/-- The row transform of `move_right`. -/
def rightRow (row : List Int) : List Int :=
  (merge_row row.reverse).reverse

/-- A move step of the loop with its draws: the command character, the position draw and the value draw. -/
abbrev Move := Char × Nat × Int

/-- The state after running the move steps `moves` in order from `s`. -/
def runMoves : List Move → State → State
  | [], s => s
  | m :: rest, s => runMoves rest (moveStep m.1 m.2.1 m.2.2 s)

/-- The boards held just before each of the move steps `moves`, oldest first. -/
def preBoards : List Move → State → List Board
  | [], _ => []
  | m :: rest, s => s.board :: preBoards rest (moveStep m.1 m.2.1 m.2.2 s)

/-- Every one of the move steps `moves`, run in order from `s`, reports a change. -/
def allChanged : List Move → State → Bool
  | [], _ => true
  | m :: rest, s => (moveCmd m.1 s.board).1 && allChanged rest (moveStep m.1 m.2.1 m.2.2 s)

/-- The state after `n` undo commands in a row. -/
def undoN : Nat → State → State
  | 0, s => s
  | n + 1, s => undoN n (undoStep s)

/-- The cells of the board in row-major order: row 0 columns 0 to 3, then row 1, and so on. -/
def scanOrder : List (Nat × Nat) :=
  (List.range 16).map (fun k => (k / 4, k % 4))

/-- The function `compute_score`: the running sum `score += val` over all rows
and all their values, in the 32-bit `int` variable `score`. -/
def compute_score (board : Board) : Int :=
  board.foldl
    (fun (score : Int) row => row.foldl (fun (score : Int) val => wrap32 (score + val)) score) 0

/-- The transpose of a 4x4 board: cell `(r, c)` of the transpose is cell `(c, r)` of the board. -/
def transposeBoard (board : Board) : Board :=
  (List.range 4).map (fun r => (List.range 4).map (fun c => cell board c r))

/-- The loop of `main` run on a list of commands with their draws; it stops at `'q'`. -/
def runLoop : List Move → State → State
  | [], s => s
  | m :: rest, s =>
      match loopStep m.1 m.2.1 m.2.2 s with
      | none => s
      | some s1 => runLoop rest s1

/-- A 4x4 board whose cells are all non-negative. -/
def goodBoard (board : Board) : Prop :=
  isBoard board ∧ ∀ i, i < 4 → ∀ j, j < 4 → 0 ≤ cell board i j

/-- A tile value: 0 (empty) or a power of two `2^k` with `k ≥ 1`. -/
def isTile (x : Int) : Prop :=
  x = 0 ∨ ∃ k : Nat, 1 ≤ k ∧ x = 2 ^ k

instance (board : Board) : Decidable (goodBoard board) := by
  unfold goodBoard; exact inferInstance

theorem compress_fold (l acc : List Int) :
    l.foldl (fun (acc : List Int) val => if val ≠ 0 then acc ++ [val] else acc) acc
      = acc ++ l.filter nonzero := by
  induction l generalizing acc with
  | nil => simp
  | cons a t ih =>
    simp only [List.foldl_cons, ih]
    by_cases h : a = 0 <;> simp [h, List.filter_cons, nonzero]

theorem compress_row_eq (row : List Int) :
    compress_row row
      = row.filter nonzero ++ List.replicate (row.length - (row.filter nonzero).length) 0 := by
  unfold compress_row resize
  simp only [compress_fold, List.nil_append]
  rw [List.take_of_length_le (List.length_filter_le _ _)]

theorem compress_row_length (row : List Int) : (compress_row row).length = row.length := by
  rw [compress_row_eq]
  have := List.length_filter_le nonzero row
  simp only [List.length_append, List.length_replicate]
  omega

theorem mergeStep_length (row : List Int) (i : Nat) : (mergeStep row i).length = row.length := by
  unfold mergeStep
  split_ifs <;> simp

theorem foldl_mergeStep_length (is : List Nat) (row : List Int) :
    (is.foldl mergeStep row).length = row.length := by
  induction is generalizing row with
  | nil => rfl
  | cons i t ih => rw [List.foldl_cons, ih, mergeStep_length]

theorem mergeLoop_length (row : List Int) : (mergeLoop row).length = row.length :=
  foldl_mergeStep_length _ row

theorem merge_row_length (row : List Int) : (merge_row row).length = row.length := by
  unfold merge_row
  rw [compress_row_length, mergeLoop_length, compress_row_length]

theorem getD_append_length (pre l : List Int) (k : Nat) :
    (pre ++ l).getD (pre.length + k) 0 = l.getD k 0 := by
  simp [List.getD_eq_getElem?_getD, List.getElem?_append_right]

theorem set_append_length (pre l : List Int) (k : Nat) (x : Int) :
    (pre ++ l).set (pre.length + k) x = pre ++ l.set k x := by
  rw [List.set_append]
  simp

theorem foldl_mergeStep_from (rest : List Int) (a : Int) (pre : List Int) :
    (List.range' pre.length rest.length).foldl mergeStep (pre ++ a :: rest)
      = pre ++ mergeFrom a rest := by
  induction rest generalizing a pre with
  | nil => simp [mergeFrom]
  | cons b rest ih =>
    rw [List.length_cons, List.range'_succ, List.foldl_cons]
    have h0 : (pre ++ a :: b :: rest).getD pre.length 0 = a := by
      have := getD_append_length pre (a :: b :: rest) 0
      simpa using this
    have h1 : (pre ++ a :: b :: rest).getD (pre.length + 1) 0 = b := by
      have := getD_append_length pre (a :: b :: rest) 1
      simpa using this
    have hstep : mergeStep (pre ++ a :: b :: rest) pre.length
        = if a ≠ 0 ∧ a = b then ((pre ++ a :: b :: rest).set pre.length (wrap32 (a * 2))).set (pre.length + 1) 0
          else pre ++ a :: b :: rest := by
      simp only [mergeStep, h0, h1]
    rw [hstep, mergeFrom]
    by_cases hc : a ≠ 0 ∧ a = b
    · rw [if_pos hc, if_pos hc]
      have hs : ((pre ++ a :: b :: rest).set pre.length (wrap32 (a * 2))).set (pre.length + 1) 0
          = (pre ++ [wrap32 (a * 2)]) ++ (0 :: rest) := by
        have e1 := set_append_length pre (a :: b :: rest) 0 (wrap32 (a * 2))
        simp only [Nat.add_zero, List.set_cons_zero] at e1
        rw [e1]
        have e2 := set_append_length pre (wrap32 (a * 2) :: b :: rest) 1 0
        simp only [List.set_cons_succ, List.set_cons_zero] at e2
        rw [e2]
        simp
      rw [hs]
      have := ih 0 (pre ++ [wrap32 (a * 2)])
      simp only [List.length_append, List.length_cons, List.length_nil, Nat.zero_add] at this
      rw [this]
      simp
    · rw [if_neg hc, if_neg hc]
      have hs : pre ++ a :: b :: rest = (pre ++ [a]) ++ (b :: rest) := by simp
      rw [hs]
      have := ih b (pre ++ [a])
      simp only [List.length_append, List.length_cons, List.length_nil, Nat.zero_add] at this
      rw [this]
      simp

theorem mergeLoop_eq_mergePairs (row : List Int) : mergeLoop row = mergePairs row := by
  cases row with
  | nil => simp [mergeLoop, mergePairs]
  | cons a rest =>
    have := foldl_mergeStep_from rest a []
    simpa [mergeLoop, mergePairs, List.range_eq_range'] using this

theorem merge_row_eq (row : List Int) :
    merge_row row = compress_row (mergePairs (compress_row row)) := by
  unfold merge_row
  rw [mergeLoop_eq_mergePairs]

/-! ### Sums -/

theorem sum_filter_nonzero (l : List Int) : (l.filter nonzero).sum = l.sum := by
  induction l with
  | nil => rfl
  | cons a t ih =>
    by_cases h : a = 0 <;> simp [List.filter_cons, nonzero, h, ih]

theorem compress_row_sum (row : List Int) : (compress_row row).sum = row.sum := by
  rw [compress_row_eq]
  simp [sum_filter_nonzero]

theorem mem_compress_row (row : List Int) (x : Int) (hx : x ∈ compress_row row) :
    x = 0 ∨ x ∈ row := by
  rw [compress_row_eq, List.mem_append] at hx
  rcases hx with h | h
  · exact Or.inr (List.mem_filter.1 h).1
  · exact Or.inl (List.eq_of_mem_replicate h)

theorem compress_row_small (row : List Int)
    (h : ∀ y ∈ row, -1073741824 ≤ y ∧ y < 1073741824) :
    ∀ y ∈ compress_row row, -1073741824 ≤ y ∧ y < 1073741824 := by
  intro y hy
  rcases mem_compress_row row y hy with e | e
  · rw [e]; omega
  · exact h y e

/-! ### 32-bit doubling -/

theorem wrap32_of_range (x : Int) (h1 : -2147483648 ≤ x) (h2 : x < 2147483648) :
    wrap32 x = x := by
  unfold wrap32
  omega

theorem wrap32_double (a : Int) (h : -1073741824 ≤ a ∧ a < 1073741824) :
    wrap32 (a * 2) = a * 2 :=
  wrap32_of_range _ (by omega) (by omega)

theorem wrap32_range (x : Int) : -2147483648 ≤ wrap32 x ∧ wrap32 x < 2147483648 := by
  unfold wrap32
  omega

theorem wrap32_sub_mod (x : Int) : (wrap32 x - x) % 4294967296 = 0 := by
  unfold wrap32
  omega

theorem wrap32_congr (x y : Int) (h : (x - y) % 4294967296 = 0) : wrap32 x = wrap32 y := by
  unfold wrap32
  omega

/-! ### Sums of the merged row -/

theorem mergeFrom_sum (rest : List Int) (a : Int) (ha : -1073741824 ≤ a ∧ a < 1073741824)
    (hrest : ∀ y ∈ rest, -1073741824 ≤ y ∧ y < 1073741824) :
    (mergeFrom a rest).sum = a + rest.sum := by
  induction rest generalizing a with
  | nil => simp [mergeFrom]
  | cons b rest ih =>
    have hb := hrest b (List.mem_cons_self _ _)
    have hr : ∀ y ∈ rest, -1073741824 ≤ y ∧ y < 1073741824 :=
      fun y hy => hrest y (List.mem_cons_of_mem _ hy)
    rw [mergeFrom]
    split_ifs with hc
    · obtain ⟨_, rfl⟩ := hc
      simp only [List.sum_cons, ih 0 (by omega) hr, wrap32_double a ha]
      ring
    · simp only [List.sum_cons, ih b hb hr]

theorem mergeFrom_sum_mod (rest : List Int) (a : Int) :
    ((mergeFrom a rest).sum - (a + rest.sum)) % 4294967296 = 0 := by
  induction rest generalizing a with
  | nil => simp [mergeFrom]
  | cons b rest ih =>
    rw [mergeFrom]
    split_ifs with hc
    · obtain ⟨_, rfl⟩ := hc
      have h1 := ih 0
      have h2 := wrap32_sub_mod (a * 2)
      simp only [List.sum_cons]
      omega
    · have h1 := ih b
      simp only [List.sum_cons]
      omega

theorem mergePairs_sum (l : List Int) (h : ∀ y ∈ l, -1073741824 ≤ y ∧ y < 1073741824) :
    (mergePairs l).sum = l.sum := by
  cases l with
  | nil => rfl
  | cons a rest =>
    rw [mergePairs, mergeFrom_sum rest a (h a (List.mem_cons_self _ _))
      (fun y hy => h y (List.mem_cons_of_mem _ hy)), List.sum_cons]

theorem mergePairs_sum_mod (l : List Int) :
    ((mergePairs l).sum - l.sum) % 4294967296 = 0 := by
  cases l with
  | nil => simp [mergePairs]
  | cons a rest =>
    have := mergeFrom_sum_mod rest a
    simpa [mergePairs] using this

theorem merge_row_sum (row : List Int) (h : ∀ y ∈ row, -1073741824 ≤ y ∧ y < 1073741824) :
    (merge_row row).sum = row.sum := by
  rw [merge_row_eq, compress_row_sum, mergePairs_sum _ (compress_row_small row h),
    compress_row_sum]

theorem merge_row_sum_mod (row : List Int) :
    ((merge_row row).sum - row.sum) % 4294967296 = 0 := by
  have := mergePairs_sum_mod (compress_row row)
  rw [merge_row_eq, compress_row_sum]
  rw [compress_row_sum] at this
  exact this

/-! ### The shape of a compressed row -/

theorem filter_nonzero_replicate (k : Nat) : (List.replicate k (0 : Int)).filter nonzero = [] := by
  induction k with
  | zero => rfl
  | succ k ih => simp [List.replicate_succ, List.filter_cons, nonzero]

theorem compress_row_filter (row : List Int) :
    (compress_row row).filter nonzero = row.filter nonzero := by
  rw [compress_row_eq, List.filter_append, filter_nonzero_replicate, List.append_nil,
    List.filter_filter]
  simp

theorem compress_row_idem (row : List Int) : compress_row (compress_row row) = compress_row row := by
  conv_lhs => rw [compress_row_eq]
  rw [compress_row_filter, compress_row_length, ← compress_row_eq]

theorem compress_row_tail_zero (row : List Int) (i j : Nat) (hij : i < j)
    (hi : (compress_row row).getD i 0 = 0) : (compress_row row).getD j 0 = 0 := by
  rw [compress_row_eq] at hi ⊢
  by_cases h : i < (row.filter nonzero).length
  · exfalso
    rw [List.getD_append _ _ _ _ h, List.getD_eq_getElem?_getD, List.getElem?_eq_getElem h] at hi
    have hm : (row.filter nonzero)[i] ∈ row.filter nonzero := List.getElem_mem h
    rw [List.mem_filter] at hm
    simp [nonzero] at hm
    exact hm.2 (by simpa using hi)
  · have hj : (row.filter nonzero).length ≤ j := by omega
    rw [List.getD_eq_getElem?_getD, List.getElem?_append_right hj]
    by_cases hk : j - (row.filter nonzero).length < row.length - (row.filter nonzero).length
    · simp [List.getElem?_replicate, hk]
    · simp [List.getElem?_replicate, hk]

/-! ### The reference scan -/

theorem mergeFrom_zero_replicate (k : Nat) :
    (mergeFrom 0 (List.replicate k 0)).filter nonzero = [] := by
  induction k with
  | zero => simp [mergeFrom, nonzero]
  | succ k ih =>
    rw [List.replicate_succ, mergeFrom]
    simp [ih, nonzero]

theorem mergeFrom_greedy (rest : List Int) (k : Nat)
    (hrest : ∀ x ∈ rest, x ≠ 0 ∧ -1073741824 ≤ x ∧ x < 1073741824) :
    (∀ a : Int, a ≠ 0 → -1073741824 ≤ a ∧ a < 1073741824 →
        (mergeFrom a (rest ++ List.replicate k 0)).filter nonzero = greedyMerge (a :: rest)) ∧
      (mergeFrom 0 (rest ++ List.replicate k 0)).filter nonzero = greedyMerge rest := by
  induction rest with
  | nil =>
    refine ⟨?_, ?_⟩
    · intro a ha _
      cases k with
      | zero => simp [mergeFrom, greedyMerge, nonzero, ha]
      | succ k =>
        have hz := mergeFrom_zero_replicate k
        simp only [List.nil_append, List.replicate_succ, mergeFrom]
        rw [if_neg (by intro h; exact ha (h.2.trans rfl))]
        simp [List.filter_cons, nonzero, ha, greedyMerge]
        simpa [nonzero] using hz
    · simpa [greedyMerge] using mergeFrom_zero_replicate k
  | cons b rest ih =>
    obtain ⟨hb, hbs⟩ := hrest b (List.mem_cons_self _ _)
    obtain ⟨ihA, ihB⟩ := ih (fun x hx => hrest x (List.mem_cons_of_mem _ hx))
    refine ⟨?_, ?_⟩
    · intro a ha has
      rw [List.cons_append, mergeFrom, greedyMerge]
      by_cases hab : a = b
      · rw [if_pos ⟨ha, hab⟩, if_pos hab, List.filter_cons, wrap32_double a has]
        have h2 : nonzero (a * 2) = true := by simp [nonzero, ha]
        rw [h2, if_pos rfl, ihB, mul_comm]
      · rw [if_neg (fun h => hab h.2), if_neg hab, List.filter_cons]
        have h2 : nonzero a = true := by simp [nonzero, ha]
        rw [h2, if_pos rfl, ihA b hb hbs]
    · rw [List.cons_append, mergeFrom, if_neg (by simp), List.filter_cons]
      have h2 : nonzero 0 = false := by simp [nonzero]
      rw [h2]
      simpa using ihA b hb hbs

theorem mergePairs_greedy (row : List Int)
    (hr : ∀ y ∈ row, -1073741824 ≤ y ∧ y < 1073741824) :
    (mergePairs (compress_row row)).filter nonzero = greedyMerge (row.filter nonzero) := by
  rw [compress_row_eq]
  have hnz : ∀ x ∈ row.filter nonzero, x ≠ 0 ∧ -1073741824 ≤ x ∧ x < 1073741824 := by
    intro x hx
    rw [List.mem_filter] at hx
    exact ⟨by simpa [nonzero] using hx.2, hr x hx.1⟩
  generalize row.length - (row.filter nonzero).length = k
  generalize row.filter nonzero = nz at hnz
  cases nz with
  | nil =>
    cases k with
    | zero => simp [mergePairs, greedyMerge]
    | succ k =>
      simpa [mergePairs, List.replicate_succ, greedyMerge] using mergeFrom_zero_replicate k
  | cons a rest =>
    obtain ⟨ha, has⟩ := hnz a (List.mem_cons_self _ _)
    exact (mergeFrom_greedy rest k (fun x hx => hnz x (List.mem_cons_of_mem _ hx))).1 a ha has

theorem mergePairs_length (l : List Int) : (mergePairs l).length = l.length := by
  rw [← mergeLoop_eq_mergePairs, mergeLoop_length]

theorem merge_row_eq_ref (r : List Int) (h : r.length = 4)
    (hr : ∀ y ∈ r, -1073741824 ≤ y ∧ y < 1073741824) : merge_row r = merge_row_ref r := by
  rw [merge_row_eq, compress_row_eq, mergePairs_greedy r hr, mergePairs_length,
    compress_row_length, h]
  rfl

/-! ### Repeating `merge_row` -/

theorem mergeFrom_fixed (rest : List Int) (a : Int) (h : hasEqualPair (a :: rest) = false) :
    mergeFrom a rest = a :: rest := by
  induction rest generalizing a with
  | nil => rfl
  | cons b rest ih =>
    simp only [hasEqualPair, Bool.or_eq_false_iff, Bool.and_eq_false_imp, decide_eq_true_eq,
      decide_eq_false_iff_not] at h
    rw [mergeFrom, if_neg (fun hc => h.1 hc.1 hc.2), ih b h.2]

theorem mergeFrom_count_le (rest : List Int) (a : Int) :
    ((mergeFrom a rest).filter nonzero).length ≤ ((a :: rest).filter nonzero).length := by
  induction rest generalizing a with
  | nil => simp [mergeFrom]
  | cons b rest ih =>
    rw [mergeFrom]
    split_ifs with hc
    · obtain ⟨ha, rfl⟩ := hc
      have := ih 0
      by_cases hw : wrap32 (a * 2) = 0 <;>
        simp [List.filter_cons, nonzero, ha, hw] at this ⊢ <;> omega
    · have := ih b
      by_cases ha : a = 0 <;> simp [List.filter_cons, nonzero, ha] at this ⊢ <;> omega

theorem mergeFrom_count_lt (rest : List Int) (a : Int) (h : hasEqualPair (a :: rest) = true) :
    ((mergeFrom a rest).filter nonzero).length < ((a :: rest).filter nonzero).length := by
  induction rest generalizing a with
  | nil => simp [hasEqualPair] at h
  | cons b rest ih =>
    rw [mergeFrom]
    split_ifs with hc
    · obtain ⟨ha, rfl⟩ := hc
      have := mergeFrom_count_le rest 0
      by_cases hw : wrap32 (a * 2) = 0 <;>
        simp [List.filter_cons, nonzero, ha, hw] at this ⊢ <;> omega
    · have hb : hasEqualPair (b :: rest) = true := by
        simp only [hasEqualPair, Bool.or_eq_true, Bool.and_eq_true, decide_eq_true_eq] at h
        rcases h with h | h
        · exact absurd h hc
        · exact h
      have := ih b hb
      by_cases ha : a = 0 <;> simp [List.filter_cons, nonzero, ha] at this ⊢ <;> omega

theorem merge_row_fixed_iff (row : List Int) :
    merge_row (compress_row row) = compress_row row ↔ hasEqualPair (compress_row row) = false := by
  rw [merge_row_eq, compress_row_idem]
  constructor
  · intro h
    by_contra hp
    rw [Bool.not_eq_false] at hp
    have hlen := congrArg (fun l => (l.filter nonzero).length) h
    simp only [compress_row_filter] at hlen
    cases hc : compress_row row with
    | nil => rw [hc] at hp; simp [hasEqualPair] at hp
    | cons a rest =>
      have hf := congrArg List.length (compress_row_filter row)
      rw [hc] at hp hlen hf
      have := mergeFrom_count_lt rest a hp
      rw [mergePairs] at hlen
      omega
  · intro h
    cases hc : compress_row row with
    | nil => simp [mergePairs, compress_row, resize]
    | cons a rest =>
      rw [hc] at h
      rw [mergePairs, mergeFrom_fixed rest a h, ← hc, compress_row_idem]

theorem merge_row_twice_iff (r : List Int) :
    merge_row (merge_row r) = merge_row r ↔ hasEqualPair (merge_row r) = false := by
  have := merge_row_fixed_iff (mergeLoop (compress_row r))
  exact this

theorem hasEqualPair_four (x y z w : Int) :
    hasEqualPair [x, y, z, w] = false ↔
      ¬ ∃ i, i + 1 < 4 ∧ [x, y, z, w].getD i 0 ≠ 0 ∧ [x, y, z, w].getD i 0 = [x, y, z, w].getD (i + 1) 0 := by
  simp only [hasEqualPair, Bool.or_eq_false_iff, Bool.and_eq_false_imp, decide_eq_true_eq,
    decide_eq_false_iff_not, Bool.or_false]
  constructor
  · rintro ⟨h0, h1, h2⟩ ⟨i, hi, hne, heq⟩
    have : i = 0 ∨ i = 1 ∨ i = 2 := by omega
    rcases this with rfl | rfl | rfl
    · exact h0 (by simpa using hne) (by simpa using heq)
    · exact h1 (by simpa using hne) (by simpa using heq)
    · exact h2 (by simpa using hne) (by simpa using heq)
  · intro h
    refine ⟨fun a b => h ⟨0, by omega, by simpa using a, by simpa using b⟩,
      fun a b => h ⟨1, by omega, by simpa using a, by simpa using b⟩,
      fun a b => h ⟨2, by omega, by simpa using a, by simpa using b⟩⟩


/-! ### The values `merge_row` can produce

The only arithmetic of the row transform is the doubling `row[i] *= 2`. Every
value it leaves in the row is 0, a value of the input, or the 32-bit double of
a value of the input, so rows of `int` values are turned into rows of `int`
values. -/

theorem mergeFrom_values (rest : List Int) (a x : Int) (hx : x ∈ mergeFrom a rest) :
    x = 0 ∨ x ∈ a :: rest ∨ ∃ y ∈ a :: rest, x = wrap32 (y * 2) := by
  induction rest generalizing a with
  | nil =>
    simp only [mergeFrom, List.mem_singleton] at hx
    exact Or.inr (Or.inl (by simp [hx]))
  | cons b rest ih =>
    rw [mergeFrom] at hx
    split_ifs at hx with hc
    · rcases List.mem_cons.1 hx with h | h
      · exact Or.inr (Or.inr ⟨a, List.mem_cons_self _ _, h⟩)
      · rcases ih 0 h with h0 | h1 | ⟨y, hy, h2⟩
        · exact Or.inl h0
        · rcases List.mem_cons.1 h1 with e | e
          · exact Or.inl e
          · exact Or.inr (Or.inl (List.mem_cons_of_mem _ (List.mem_cons_of_mem _ e)))
        · rcases List.mem_cons.1 hy with e | e
          · exact Or.inl (by rw [h2, e]; decide)
          · exact Or.inr (Or.inr ⟨y, List.mem_cons_of_mem _ (List.mem_cons_of_mem _ e), h2⟩)
    · rcases List.mem_cons.1 hx with h | h
      · exact Or.inr (Or.inl (by rw [h]; exact List.mem_cons_self _ _))
      · rcases ih b h with h0 | h1 | ⟨y, hy, h2⟩
        · exact Or.inl h0
        · exact Or.inr (Or.inl (List.mem_cons_of_mem _ h1))
        · exact Or.inr (Or.inr ⟨y, List.mem_cons_of_mem _ hy, h2⟩)

theorem merge_row_values (row : List Int) (x : Int) (hx : x ∈ merge_row row) :
    x = 0 ∨ x ∈ row ∨ ∃ y ∈ row, x = wrap32 (y * 2) := by
  rw [merge_row_eq] at hx
  rcases mem_compress_row _ x hx with h | h
  · exact Or.inl h
  · cases hc : compress_row row with
    | nil => rw [hc] at h; simp [mergePairs] at h
    | cons a rest =>
      rw [hc, mergePairs] at h
      rcases mergeFrom_values rest a x h with h0 | h1 | ⟨y, hy, h2⟩
      · exact Or.inl h0
      · rw [← hc] at h1
        rcases mem_compress_row row x h1 with e | e
        · exact Or.inl e
        · exact Or.inr (Or.inl e)
      · rw [← hc] at hy
        rcases mem_compress_row row y hy with e | e
        · exact Or.inl (by rw [h2, e]; decide)
        · exact Or.inr (Or.inr ⟨y, e, h2⟩)

theorem merge_row_in_int_range (row : List Int)
    (h : ∀ y ∈ row, -2147483648 ≤ y ∧ y < 2147483648) :
    ∀ x ∈ merge_row row, -2147483648 ≤ x ∧ x < 2147483648 := by
  intro x hx
  rcases merge_row_values row x hx with h0 | h1 | ⟨y, _, h2⟩
  · rw [h0]; omega
  · exact h x h1
  · rw [h2]
    exact wrap32_range _

/-! ## Boards: cells, rows and columns -/

theorem getD_set_of_lt {α : Type} (l : List α) (i j : Nat) (x d : α) (hi : i < l.length) :
    (l.set i x).getD j d = if j = i then x else l.getD j d := by
  simp only [List.getD_eq_getElem?_getD, List.getElem?_set]
  by_cases h : i = j
  · subst h
    simp [hi]
  · have h2 : ¬ j = i := fun e => h e.symm
    simp [h, h2]

theorem isBoard_row_length (board : Board) (hb : isBoard board) (r : Nat) (hr : r < 4) :
    (board.getD r []).length = 4 := by
  have hlen : r < board.length := by rw [hb.1]; exact hr
  rw [List.getD_eq_getElem?_getD, List.getElem?_eq_getElem hlen]
  exact hb.2 _ (List.getElem_mem hlen)

theorem isBoard_setCell (board : Board) (hb : isBoard board) (r c : Nat) (x : Int) :
    isBoard (setCell board r c x) := by
  unfold setCell
  refine ⟨by rw [List.length_set]; exact hb.1, ?_⟩
  intro row hrow
  rcases List.mem_or_eq_of_mem_set hrow with h | h
  · exact hb.2 row h
  · rw [h, List.length_set]
    by_cases hr : r < 4
    · exact isBoard_row_length board hb r hr
    · exfalso
      have hge : board.length ≤ r := by rw [hb.1]; omega
      rw [List.set_eq_of_length_le hge] at hrow
      rw [List.getD_eq_getElem?_getD, List.getElem?_eq_none hge] at h
      have := hb.2 row hrow
      rw [h] at this
      simp at this

theorem cell_setCell (board : Board) (hb : isBoard board) (r c : Nat) (hr : r < 4) (hc : c < 4)
    (x : Int) (i j : Nat) :
    cell (setCell board r c x) i j = if i = r ∧ j = c then x else cell board i j := by
  unfold cell setCell
  rw [getD_set_of_lt board r i _ [] (by rw [hb.1]; exact hr)]
  by_cases hi : i = r
  · subst hi
    rw [if_pos rfl, getD_set_of_lt _ c j x 0 (by rw [isBoard_row_length board hb i hr]; exact hc)]
    simp
  · simp [hi]

theorem getColumn_eq (board : Board) (col : Nat) :
    getColumn board col = [cell board 0 col, cell board 1 col, cell board 2 col, cell board 3 col] :=
  rfl

theorem setColumn_eq (board : Board) (col : Nat) (column : List Int) :
    setColumn board col column
      = setCell (setCell (setCell (setCell board 0 col (column.getD 0 0)) 1 col (column.getD 1 0))
          2 col (column.getD 2 0)) 3 col (column.getD 3 0) :=
  rfl

theorem isBoard_setColumn (board : Board) (hb : isBoard board) (col : Nat) (column : List Int) :
    isBoard (setColumn board col column) := by
  rw [setColumn_eq]
  exact isBoard_setCell _ (isBoard_setCell _ (isBoard_setCell _ (isBoard_setCell _ hb _ _ _) _ _ _)
    _ _ _) _ _ _

theorem cell_setColumn (board : Board) (hb : isBoard board) (col : Nat) (hc : col < 4)
    (column : List Int) (i j : Nat) (hi : i < 4) :
    cell (setColumn board col column) i j = if j = col then column.getD i 0 else cell board i j := by
  have h1 := isBoard_setCell board hb 0 col (column.getD 0 0)
  have h2 := isBoard_setCell _ h1 1 col (column.getD 1 0)
  have h3 := isBoard_setCell _ h2 2 col (column.getD 2 0)
  rw [setColumn_eq, cell_setCell _ h3 3 col (by omega) hc, cell_setCell _ h2 2 col (by omega) hc,
    cell_setCell _ h1 1 col (by omega) hc, cell_setCell _ hb 0 col (by omega) hc]
  by_cases hj : j = col
  · subst hj
    have : i = 0 ∨ i = 1 ∨ i = 2 ∨ i = 3 := by omega
    rcases this with rfl | rfl | rfl | rfl <;> simp
  · simp [hj]

theorem length_four {α : Type} (l : List α) (h : l.length = 4) : ∃ x y z w, l = [x, y, z, w] := by
  match l, h with
  | [x, y, z, w], _ => exact ⟨x, y, z, w, rfl⟩

theorem row_ext (l l' : List Int) (h : l.length = 4) (h' : l'.length = 4)
    (he : ∀ j, j < 4 → l.getD j 0 = l'.getD j 0) : l = l' := by
  obtain ⟨x, y, z, w, rfl⟩ := length_four l h
  obtain ⟨x', y', z', w', rfl⟩ := length_four l' h'
  have e0 := he 0 (by omega)
  have e1 := he 1 (by omega)
  have e2 := he 2 (by omega)
  have e3 := he 3 (by omega)
  simp at e0 e1 e2 e3
  simp [e0, e1, e2, e3]

theorem board_ext (b b' : Board) (h : isBoard b) (h' : isBoard b')
    (he : ∀ i j, i < 4 → j < 4 → cell b i j = cell b' i j) : b = b' := by
  have hrow : ∀ i, i < 4 → b.getD i [] = b'.getD i [] := fun i hi =>
    row_ext _ _ (isBoard_row_length b h i hi) (isBoard_row_length b' h' i hi) (fun j hj => he i j hi hj)
  obtain ⟨x, y, z, w, rfl⟩ := length_four b h.1
  obtain ⟨x', y', z', w', rfl⟩ := length_four b' h'.1
  have e0 := hrow 0 (by omega)
  have e1 := hrow 1 (by omega)
  have e2 := hrow 2 (by omega)
  have e3 := hrow 3 (by omega)
  simp at e0 e1 e2 e3
  simp [e0, e1, e2, e3]

theorem board_ne_iff (b b' : Board) (h : isBoard b) (h' : isBoard b') :
    b' ≠ b ↔ ∃ i j, i < 4 ∧ j < 4 ∧ cell b' i j ≠ cell b i j := by
  constructor
  · intro hne
    by_contra hex
    push_neg at hex
    exact hne (board_ext b' b h' h hex)
  · rintro ⟨i, j, _, _, hc⟩ heq
    exact hc (by rw [heq])

theorem column_get (board : Board) (i j : Nat) (hi : i < 4) :
    (getColumn board j).getD i 0 = cell board i j := by
  rw [getColumn_eq]
  have : i = 0 ∨ i = 1 ∨ i = 2 ∨ i = 3 := by omega
  rcases this with rfl | rfl | rfl | rfl <;> rfl

theorem getColumn_length (board : Board) (j : Nat) : (getColumn board j).length = 4 := rfl

theorem getColumn_setColumn (board : Board) (hb : isBoard board) (col : Nat) (hc : col < 4)
    (column : List Int) (hlen : column.length = 4) (j : Nat) :
    getColumn (setColumn board col column) j
      = if j = col then column else getColumn board j := by
  apply row_ext _ _ (getColumn_length _ _)
  · split_ifs
    · exact hlen
    · exact getColumn_length _ _
  · intro i hi
    rw [column_get _ i j hi, cell_setColumn board hb col hc column i j hi]
    split_ifs
    · rfl
    · rw [column_get _ i j hi]

theorem setColumn_getColumn (board : Board) (hb : isBoard board) (col : Nat) (hc : col < 4) :
    setColumn board col (getColumn board col) = board := by
  apply board_ext _ _ (isBoard_setColumn board hb col _) hb
  intro i j hi _
  rw [cell_setColumn board hb col hc _ i j hi]
  split_ifs with h
  · rw [column_get _ i col hi, h]
  · rfl

/-! ## The four moves -/

theorem move_left_eq (board : Board) : move_left board = moveRows merge_row board := rfl

theorem move_right_eq (board : Board) : move_right board = moveRows rightRow board := rfl

theorem move_up_eq (board : Board) :
    move_up board = (List.range 4).foldl (colStep merge_row) (false, board) := rfl

theorem move_down_eq (board : Board) :
    move_down board = (List.range 4).foldl (colStep downColumn) (false, board) := rfl

theorem foldl_rows (f : List Int → List Int) (l pre : Board) (m : Bool) :
    (List.range' pre.length l.length).foldl
        (fun (st : Bool × Board) r =>
          let old_row := st.2.getD r []
          let row := f old_row
          (if old_row ≠ row then true else st.1, st.2.set r row))
        (m, pre ++ l)
      = (m || l.any (fun row => decide (row ≠ f row)), pre ++ l.map f) := by
  induction l generalizing pre m with
  | nil => simp
  | cons a t ih =>
    rw [List.length_cons, List.range'_succ, List.foldl_cons]
    have hg : (pre ++ a :: t).getD pre.length [] = a := by
      rw [List.getD_eq_getElem?_getD, List.getElem?_append_right (Nat.le_refl _)]
      simp
    have hs : (pre ++ a :: t).set pre.length (f a) = (pre ++ [f a]) ++ t := by
      rw [List.set_append]
      simp
    simp only [hg, hs]
    have := ih (pre ++ [f a]) (if a ≠ f a then true else m)
    simp only [List.length_append, List.length_cons, List.length_nil, Nat.zero_add] at this
    rw [this]
    by_cases hc : a = f a
    · simp [← hc]
    · simp [hc]

theorem moveRows_eq (f : List Int → List Int) (board : Board) :
    moveRows f board = (board.any (fun row => decide (row ≠ f row)), board.map f) := by
  have := foldl_rows f board [] false
  simpa [moveRows, List.range_eq_range'] using this

theorem map_ne_self_iff (f : List Int → List Int) (board : Board) :
    board.any (fun row => decide (row ≠ f row)) = true ↔ board.map f ≠ board := by
  induction board with
  | nil => simp
  | cons a t ih =>
    simp only [List.any_cons, Bool.or_eq_true, ih, List.map_cons, ne_eq, List.cons.injEq, not_and,
      decide_eq_true_eq]
    constructor
    · rintro (h | h)
      · intro e; exact absurd e.symm h
      · intro _; exact h
    · intro h
      by_cases e : a = f a
      · exact Or.inr (h e.symm)
      · exact Or.inl e

theorem isBoard_map (f : List Int → List Int) (hf : ∀ l, (f l).length = l.length) (board : Board)
    (hb : isBoard board) : isBoard (board.map f) := by
  refine ⟨by rw [List.length_map]; exact hb.1, ?_⟩
  intro row hrow
  obtain ⟨r0, hr0, rfl⟩ := List.mem_map.1 hrow
  rw [hf]
  exact hb.2 r0 hr0

theorem rightRow_length (l : List Int) : (rightRow l).length = l.length := by
  simp [rightRow, merge_row_length]

theorem downColumn_length (l : List Int) : (downColumn l).length = l.length := by
  simp [downColumn, compress_row_length, mergeLoop_length]

theorem moveRows_flag (f : List Int → List Int) (hf : ∀ l, (f l).length = l.length)
    (board : Board) (hb : isBoard board) :
    isBoard (moveRows f board).2 ∧
      ((moveRows f board).1 = true ↔
        ∃ i j, i < 4 ∧ j < 4 ∧ cell (moveRows f board).2 i j ≠ cell board i j) := by
  rw [moveRows_eq]
  have hb2 := isBoard_map f hf board hb
  refine ⟨hb2, ?_⟩
  rw [← board_ne_iff board _ hb hb2]
  exact map_ne_self_iff f board

theorem colStep_spec (f : List Int → List Int)
    (st : Bool × Board) (hb : isBoard st.2) (col : Nat) (hc : col < 4) :
    colStep f st col
      = (st.1 || decide (f (getColumn st.2 col) ≠ getColumn st.2 col),
          setColumn st.2 col (f (getColumn st.2 col))) := by
  unfold colStep
  by_cases h : f (getColumn st.2 col) = getColumn st.2 col
  · rw [if_neg (by simpa using h), h, setColumn_getColumn st.2 hb col hc]
    simp
  · rw [if_pos h]
    simp [h]

theorem foldl_colStep (f : List Int → List Int) (hf : ∀ l, (f l).length = l.length)
    (cs : List Nat) (hcs : ∀ c ∈ cs, c < 4) (hnd : cs.Nodup) (st : Bool × Board)
    (hb : isBoard st.2) :
    isBoard (cs.foldl (colStep f) st).2 ∧
      (∀ j, getColumn (cs.foldl (colStep f) st).2 j
          = if j ∈ cs then f (getColumn st.2 j) else getColumn st.2 j) ∧
      ((cs.foldl (colStep f) st).1 = true ↔
        st.1 = true ∨ ∃ j ∈ cs, f (getColumn st.2 j) ≠ getColumn st.2 j) := by
  induction cs generalizing st with
  | nil => simp [hb]
  | cons c cs ih =>
    have hc : c < 4 := hcs c (List.mem_cons_self _ _)
    have hnd2 := List.nodup_cons.1 hnd
    rw [List.foldl_cons, colStep_spec f st hb c hc]
    have hb1 : isBoard (setColumn st.2 c (f (getColumn st.2 c))) := isBoard_setColumn _ hb _ _
    obtain ⟨i1, i2, i3⟩ := ih (fun x hx => hcs x (List.mem_cons_of_mem _ hx)) hnd2.2
      (st.1 || decide (f (getColumn st.2 c) ≠ getColumn st.2 c),
        setColumn st.2 c (f (getColumn st.2 c))) hb1
    have hcol : ∀ j, getColumn (setColumn st.2 c (f (getColumn st.2 c))) j
        = if j = c then f (getColumn st.2 c) else getColumn st.2 j := fun j =>
      getColumn_setColumn st.2 hb c hc _ (by rw [hf]; rfl) j
    refine ⟨i1, ?_, ?_⟩
    · intro j
      rw [i2 j]
      simp only [hcol, List.mem_cons]
      by_cases hjc : j = c
      · subst hjc
        simp [hnd2.1]
      · simp [hjc]
    · rw [i3]
      simp only [hcol, List.mem_cons, Bool.or_eq_true, decide_eq_true_eq]
      constructor
      · rintro ((h | h) | ⟨j, hj, h⟩)
        · exact Or.inl h
        · exact Or.inr ⟨c, Or.inl rfl, h⟩
        · have hjc : j ≠ c := fun e => hnd2.1 (e ▸ hj)
          rw [if_neg hjc] at h
          exact Or.inr ⟨j, Or.inr hj, h⟩
      · rintro (h | ⟨j, hj | hj, h⟩)
        · exact Or.inl (Or.inl h)
        · subst hj
          exact Or.inl (Or.inr h)
        · have hjc : j ≠ c := fun e => hnd2.1 (e ▸ hj)
          refine Or.inr ⟨j, hj, ?_⟩
          rw [if_neg hjc]
          exact h

theorem moveCols_spec (f : List Int → List Int) (hf : ∀ l, (f l).length = l.length)
    (board : Board) (hb : isBoard board) :
    isBoard ((List.range 4).foldl (colStep f) (false, board)).2 ∧
      (∀ j, j < 4 →
        getColumn ((List.range 4).foldl (colStep f) (false, board)).2 j = f (getColumn board j)) ∧
      (((List.range 4).foldl (colStep f) (false, board)).1 = true ↔
        ∃ j, j < 4 ∧ f (getColumn board j) ≠ getColumn board j) := by
  obtain ⟨h1, h2, h3⟩ := foldl_colStep f hf (List.range 4) (fun c hc => List.mem_range.1 hc)
    (List.nodup_range 4) (false, board) hb
  refine ⟨h1, ?_, ?_⟩
  · intro j hj
    rw [h2 j, if_pos (List.mem_range.2 hj)]
  · rw [h3]
    simp [List.mem_range]

theorem moveCols_flag (f : List Int → List Int) (hf : ∀ l, (f l).length = l.length)
    (board : Board) (hb : isBoard board) :
    ((List.range 4).foldl (colStep f) (false, board)).1 = true ↔
      ∃ i j, i < 4 ∧ j < 4 ∧
        cell ((List.range 4).foldl (colStep f) (false, board)).2 i j ≠ cell board i j := by
  obtain ⟨_, h2, h3⟩ := moveCols_spec f hf board hb
  rw [h3]
  constructor
  · rintro ⟨j, hj, hne⟩
    by_contra hex
    push_neg at hex
    apply hne
    rw [← h2 j hj]
    apply row_ext _ _ (getColumn_length _ _) (getColumn_length _ _)
    intro i hi
    rw [column_get _ i j hi, column_get _ i j hi]
    exact hex i j hi hj
  · rintro ⟨i, j, hi, hj, hne⟩
    refine ⟨j, hj, ?_⟩
    intro he
    apply hne
    rw [← column_get _ i j hi, ← column_get _ i j hi, h2 j hj, he]

theorem isBoard_move_up (board : Board) (hb : isBoard board) : isBoard (move_up board).2 :=
  (moveCols_spec merge_row merge_row_length board hb).1

theorem isBoard_move_down (board : Board) (hb : isBoard board) : isBoard (move_down board).2 :=
  (moveCols_spec downColumn downColumn_length board hb).1

theorem isBoard_move_left (board : Board) (hb : isBoard board) : isBoard (move_left board).2 :=
  (moveRows_flag merge_row merge_row_length board hb).1

theorem isBoard_move_right (board : Board) (hb : isBoard board) : isBoard (move_right board).2 :=
  (moveRows_flag rightRow rightRow_length board hb).1

theorem moveCmd_cases (cmd : Char) (board : Board) :
    moveCmd cmd board = move_left board ∨ moveCmd cmd board = move_right board ∨
      moveCmd cmd board = move_up board ∨ moveCmd cmd board = move_down board ∨
      moveCmd cmd board = (false, board) := by
  unfold moveCmd
  split_ifs <;> simp

theorem isBoard_moveCmd (cmd : Char) (board : Board) (hb : isBoard board) :
    isBoard (moveCmd cmd board).2 := by
  rcases moveCmd_cases cmd board with h | h | h | h | h <;> rw [h]
  · exact isBoard_move_left board hb
  · exact isBoard_move_right board hb
  · exact isBoard_move_up board hb
  · exact isBoard_move_down board hb
  · exact hb

theorem moveCmd_flag (cmd : Char) (board : Board) (hb : isBoard board) :
    (moveCmd cmd board).1 = true ↔ (moveCmd cmd board).2 ≠ board := by
  rw [board_ne_iff board _ hb (isBoard_moveCmd cmd board hb)]
  rcases moveCmd_cases cmd board with h | h | h | h | h <;> rw [h]
  · exact (moveRows_flag merge_row merge_row_length board hb).2
  · exact (moveRows_flag rightRow rightRow_length board hb).2
  · exact moveCols_flag merge_row merge_row_length board hb
  · exact moveCols_flag downColumn downColumn_length board hb
  · simp

theorem moveCmd_unchanged (cmd : Char) (board : Board) (hb : isBoard board)
    (h : (moveCmd cmd board).1 = false) : (moveCmd cmd board).2 = board := by
  by_contra hne
  have := (moveCmd_flag cmd board hb).2 hne
  rw [h] at this
  exact Bool.noConfusion this

/-! ## The game loop -/

theorem moveStep_changed (cmd : Char) (p : Nat) (v : Int) (s : State)
    (h : (moveCmd cmd s.board).1 = true) :
    moveStep cmd p v s
      = { board := spawn_tile (moveCmd cmd s.board).2 p v, history := s.board :: s.history } := by
  simp [moveStep, h]

theorem runMoves_history (moves : List Move) (s : State) (h : allChanged moves s = true) :
    (runMoves moves s).history = (preBoards moves s).reverse ++ s.history := by
  induction moves generalizing s with
  | nil => simp [runMoves, preBoards]
  | cons m rest ih =>
    rw [allChanged, Bool.and_eq_true] at h
    obtain ⟨h1, h2⟩ := h
    rw [runMoves, preBoards, ih _ h2, moveStep_changed _ _ _ _ h1]
    simp

theorem preBoards_length (moves : List Move) (s : State) :
    (preBoards moves s).length = moves.length := by
  induction moves generalizing s with
  | nil => rfl
  | cons m rest ih => simp [preBoards, ih]

theorem undoN_nil (n : Nat) (s : State) (h : s.history = []) : undoN n s = s := by
  induction n with
  | zero => rfl
  | succ n ih =>
    have : undoStep s = s := by
      unfold undoStep
      rw [h]
    rw [undoN, this, ih]

theorem undoN_history (n : Nat) (s : State) : (undoN n s).history = s.history.drop n := by
  induction n generalizing s with
  | zero => simp [undoN]
  | succ n ih =>
    rw [undoN, ih]
    cases hh : s.history with
    | nil => simp [undoStep, hh]
    | cons top rest => simp [undoStep, hh]

theorem undoN_board (n : Nat) (s : State) (hn : n < s.history.length) :
    some (undoN (n + 1) s).board = s.history[n]? := by
  induction n generalizing s with
  | zero =>
    cases hh : s.history with
    | nil => rw [hh] at hn; simp at hn
    | cons top rest => simp [undoN, undoStep, hh]
  | succ n ih =>
    cases hh : s.history with
    | nil => rw [hh] at hn; simp at hn
    | cons top rest =>
      rw [hh] at hn
      rw [undoN]
      have hu : undoStep s = { board := top, history := rest } := by simp [undoStep, hh]
      rw [hu, ih _ (by simpa using hn)]
      simp

theorem undoN_add (m n : Nat) (s : State) : undoN (m + n) s = undoN n (undoN m s) := by
  induction m generalizing s with
  | zero => simp [undoN]
  | succ m ih =>
    rw [Nat.succ_add, undoN, undoN, ih]

/-! ## Spawning a tile -/

theorem foldl_push_if {α β : Type} (P : α → Prop) [DecidablePred P] (g : α → β) (l : List α)
    (acc : List β) :
    l.foldl (fun (acc : List β) c => if P c then acc ++ [g c] else acc) acc
      = acc ++ (l.filter (fun c => decide (P c))).map g := by
  induction l generalizing acc with
  | nil => simp
  | cons a t ih =>
    rw [List.foldl_cons, ih]
    by_cases h : P a <;> simp [List.filter_cons, h]

theorem emptyCells_eq (board : Board) :
    emptyCells board = scanOrder.filter (fun rc => decide (cell board rc.1 rc.2 = 0)) := by
  have hs : scanOrder
      = [0, 1, 2, 3].map (fun c => (0, c)) ++ ([0, 1, 2, 3].map (fun c => (1, c)) ++
          ([0, 1, 2, 3].map (fun c => (2, c)) ++ [0, 1, 2, 3].map (fun c => (3, c)))) := by
    decide
  have hr : List.range 4 = [0, 1, 2, 3] := by decide
  unfold emptyCells
  simp only [foldl_push_if]
  rw [hs, hr]
  simp only [List.foldl_cons, List.foldl_nil, List.filter_append, List.filter_map, List.nil_append,
    List.append_assoc]
  rfl

theorem mem_scanOrder (rc : Nat × Nat) : rc ∈ scanOrder ↔ rc.1 < 4 ∧ rc.2 < 4 := by
  constructor
  · intro h
    have hall : ∀ x ∈ scanOrder, x.1 < 4 ∧ x.2 < 4 := by decide
    exact hall rc h
  · rintro ⟨h1, h2⟩
    obtain ⟨r, c⟩ := rc
    simp only [scanOrder, List.mem_map, List.mem_range, Prod.mk.injEq]
    refine ⟨4 * r + c, by omega, by omega, by omega⟩

theorem mem_emptyCells (board : Board) (rc : Nat × Nat) :
    rc ∈ emptyCells board ↔ rc.1 < 4 ∧ rc.2 < 4 ∧ cell board rc.1 rc.2 = 0 := by
  rw [emptyCells_eq, List.mem_filter, mem_scanOrder]
  simp [and_assoc]

theorem emptyCells_eq_nil (board : Board) :
    emptyCells board = [] ↔ ∀ i j, i < 4 → j < 4 → cell board i j ≠ 0 := by
  rw [List.eq_nil_iff_forall_not_mem]
  constructor
  · intro h i j hi hj hc
    exact h (i, j) ((mem_emptyCells board (i, j)).2 ⟨hi, hj, hc⟩)
  · intro h rc hrc
    obtain ⟨h1, h2, h3⟩ := (mem_emptyCells board rc).1 hrc
    exact h rc.1 rc.2 h1 h2 h3

theorem spawn_tile_full (board : Board) (p : Nat) (v : Int) (h : emptyCells board = []) :
    spawn_tile board p v = board := by
  simp [spawn_tile, h]

theorem spawn_tile_some (board : Board) (p : Nat) (v : Int) (h : emptyCells board ≠ [])
    (hp : p < (emptyCells board).length) :
    spawn_tile board p v
      = setCell board ((emptyCells board)[p]).1 ((emptyCells board)[p]).2 (if v = 1 then 4 else 2) := by
  have hg : (emptyCells board).getD p (0, 0) = (emptyCells board)[p] := by
    rw [List.getD_eq_getElem?_getD, List.getElem?_eq_getElem hp]
    rfl
  simp only [spawn_tile, List.isEmpty_iff, h, if_false, hg]

/-! ## Rows and columns of the moved board -/

theorem downColumn_eq (c : List Int) : downColumn c = (merge_row c.reverse).reverse := rfl

theorem downColumn_eq_rightRow : downColumn = rightRow := rfl

theorem getD_map_of_lt (f : List Int → List Int) (board : Board) (i : Nat) (hi : i < board.length) :
    (board.map f).getD i [] = f (board.getD i []) := by
  simp [List.getD_eq_getElem?_getD, List.getElem?_eq_getElem hi]

theorem cell_map (f : List Int → List Int) (board : Board) (hb : isBoard board) (i j : Nat)
    (hi : i < 4) : cell (board.map f) i j = (f (board.getD i [])).getD j 0 := by
  unfold cell
  rw [getD_map_of_lt f board i (by rw [hb.1]; exact hi)]

theorem merge_row_tail_zero (row : List Int) (i j : Nat) (hij : i < j)
    (hi : (merge_row row).getD i 0 = 0) : (merge_row row).getD j 0 = 0 :=
  compress_row_tail_zero _ i j hij hi

theorem getD_reverse_four (l : List Int) (h : l.length = 4) (j : Nat) (hj : j < 4) :
    l.reverse.getD j 0 = l.getD (3 - j) 0 := by
  obtain ⟨x, y, z, w, rfl⟩ := length_four l h
  have : j = 0 ∨ j = 1 ∨ j = 2 ∨ j = 3 := by omega
  rcases this with rfl | rfl | rfl | rfl <;> rfl

theorem rightRow_head_zero (row : List Int) (h : row.length = 4) (j k : Nat) (hjk : j < k)
    (hk : k < 4) (hz : (rightRow row).getD k 0 = 0) : (rightRow row).getD j 0 = 0 := by
  have hlen : (merge_row row.reverse).length = 4 := by
    rw [merge_row_length, List.length_reverse, h]
  unfold rightRow at hz ⊢
  rw [getD_reverse_four _ hlen k hk] at hz
  rw [getD_reverse_four _ hlen j (by omega)]
  exact merge_row_tail_zero _ (3 - k) (3 - j) (by omega) hz

theorem compress_row_packed (x y z w : Int) (h1 : x = 0 → y = 0) (h2 : y = 0 → z = 0)
    (h3 : z = 0 → w = 0) : compress_row [x, y, z, w] = [x, y, z, w] := by
  rw [compress_row_eq]
  by_cases hx : x = 0
  · have hy := h1 hx
    have hz := h2 hy
    have hw := h3 hz
    subst hx hy hz hw
    decide
  · by_cases hy : y = 0
    · have hz := h2 hy
      have hw := h3 hz
      subst hy hz hw
      simp [List.filter_cons, nonzero, hx, List.replicate]
    · by_cases hz : z = 0
      · have hw := h3 hz
        subst hz hw
        simp [List.filter_cons, nonzero, hx, hy, List.replicate]
      · by_cases hw : w = 0
        · subst hw
          simp [List.filter_cons, nonzero, hx, hy, hz, List.replicate]
        · simp [List.filter_cons, nonzero, hx, hy, hz, hw]

theorem rightRow_fixed (x y z w : Int) (h1 : x ≠ 0 → y ≠ 0) (h2 : y ≠ 0 → z ≠ 0)
    (h3 : z ≠ 0 → w ≠ 0) (n1 : x ≠ 0 → y ≠ 0 → x ≠ y) (n2 : y ≠ 0 → z ≠ 0 → y ≠ z)
    (n3 : z ≠ 0 → w ≠ 0 → z ≠ w) : rightRow [x, y, z, w] = [x, y, z, w] := by
  have hc : compress_row [w, z, y, x] = [w, z, y, x] :=
    compress_row_packed w z y x (fun h => by_contra fun hz => h3 hz h)
      (fun h => by_contra fun hy => h2 hy h) (fun h => by_contra fun hx => h1 hx h)
  have hp : hasEqualPair [w, z, y, x] = false := by
    simp only [hasEqualPair, Bool.or_eq_false_iff, Bool.and_eq_false_imp, decide_eq_true_eq,
      decide_eq_false_iff_not, Bool.or_false]
    refine ⟨fun hw e => ?_, fun hz e => ?_, fun hy e => ?_⟩
    · have hz : z ≠ 0 := by rw [← e]; exact hw
      exact n3 hz hw e.symm
    · have hy : y ≠ 0 := by rw [← e]; exact hz
      exact n2 hy hz e.symm
    · have hx : x ≠ 0 := by rw [← e]; exact hy
      exact n1 hx hy e.symm
  have hm := (merge_row_fixed_iff [w, z, y, x]).2 (by rw [hc]; exact hp)
  rw [hc] at hm
  show (merge_row [w, z, y, x]).reverse = [x, y, z, w]
  rw [hm]
  rfl

theorem mem_board_getD (board : Board) (hb : isBoard board) (row : List Int) (h : row ∈ board) :
    ∃ i, i < 4 ∧ row = board.getD i [] := by
  obtain ⟨i, hi, rfl⟩ := List.mem_iff_getElem.1 h
  refine ⟨i, by rw [← hb.1]; exact hi, ?_⟩
  rw [List.getD_eq_getElem?_getD, List.getElem?_eq_getElem hi]
  rfl

theorem moveRows_fixed (f : List Int → List Int) (board : Board)
    (h : ∀ row ∈ board, f row = row) : moveRows f board = (false, board) := by
  rw [moveRows_eq]
  have h1 : board.map f = board := by
    conv_rhs => rw [← List.map_id board]
    exact List.map_congr_left h
  have h2 : board.any (fun row => decide (row ≠ f row)) = false := by
    rw [List.any_eq_false]
    intro row hrow
    simp [h row hrow]
  rw [h1, h2]

/-! ## Properties of the cells kept by the operations -/

theorem getD_mem_of_lt (l : List Int) (i : Nat) (hi : i < l.length) : l.getD i 0 ∈ l := by
  rw [List.getD_eq_getElem?_getD, List.getElem?_eq_getElem hi]
  exact List.getElem_mem hi

theorem mem_getD (l : List Int) (x : Int) (hx : x ∈ l) : ∃ i, i < l.length ∧ x = l.getD i 0 := by
  obtain ⟨i, hi, rfl⟩ := List.mem_iff_getElem.1 hx
  refine ⟨i, hi, ?_⟩
  rw [List.getD_eq_getElem?_getD, List.getElem?_eq_getElem hi]
  rfl

theorem merge_row_keeps (P Q : Int → Prop) (h0 : Q 0) (h1 : ∀ y, P y → Q y)
    (h2 : ∀ y, P y → Q (wrap32 (y * 2)))
    (row : List Int) (h : ∀ y ∈ row, P y) : ∀ x ∈ merge_row row, Q x := by
  intro x hx
  rcases merge_row_values row x hx with e | e | ⟨y, hy, e⟩
  · rw [e]; exact h0
  · exact h1 x (h x e)
  · rw [e]; exact h2 y (h y hy)

theorem rightRow_keeps (P Q : Int → Prop) (h0 : Q 0) (h1 : ∀ y, P y → Q y)
    (h2 : ∀ y, P y → Q (wrap32 (y * 2)))
    (row : List Int) (h : ∀ y ∈ row, P y) : ∀ x ∈ rightRow row, Q x := by
  intro x hx
  unfold rightRow at hx
  rw [List.mem_reverse] at hx
  exact merge_row_keeps P Q h0 h1 h2 row.reverse (fun y hy => h y (List.mem_reverse.1 hy)) x hx

theorem moveRows_keeps (P Q : Int → Prop) (f : List Int → List Int)
    (hfl : ∀ l, (f l).length = l.length)
    (hf : ∀ row : List Int, (∀ y ∈ row, P y) → ∀ x ∈ f row, Q x)
    (board : Board) (hb : isBoard board) (hc : ∀ i j, i < 4 → j < 4 → P (cell board i j)) :
    ∀ i j, i < 4 → j < 4 → Q (cell (moveRows f board).2 i j) := by
  intro i j hi hj
  have hrow := isBoard_row_length board hb i hi
  rw [moveRows_eq, cell_map f board hb i j hi]
  apply hf (board.getD i []) _ _ (getD_mem_of_lt _ j (by rw [hfl, hrow]; exact hj))
  intro y hy
  obtain ⟨k, hk, rfl⟩ := mem_getD _ y hy
  exact hc i k hi (by rw [← hrow]; exact hk)

theorem moveCols_keeps (P Q : Int → Prop) (f : List Int → List Int)
    (hfl : ∀ l, (f l).length = l.length)
    (hf : ∀ row : List Int, (∀ y ∈ row, P y) → ∀ x ∈ f row, Q x)
    (board : Board) (hb : isBoard board) (hc : ∀ i j, i < 4 → j < 4 → P (cell board i j)) :
    ∀ i j, i < 4 → j < 4 →
      Q (cell ((List.range 4).foldl (colStep f) (false, board)).2 i j) := by
  intro i j hi hj
  have hcol := (moveCols_spec f hfl board hb).2.1 j hj
  rw [← column_get _ i j hi, hcol]
  apply hf (getColumn board j) _ _ (getD_mem_of_lt _ i (by rw [hfl]; exact hi))
  intro y hy
  obtain ⟨k, hk, rfl⟩ := mem_getD _ y hy
  rw [column_get board k j hk]
  exact hc k j hk hj

theorem spawn_tile_cases (board : Board) (p : Nat) (v : Int) :
    spawn_tile board p v = board ∨
      ∃ r c, r < 4 ∧ c < 4 ∧ spawn_tile board p v = setCell board r c (if v = 1 then 4 else 2) := by
  by_cases h : emptyCells board = []
  · exact Or.inl (spawn_tile_full board p v h)
  · right
    have hs : spawn_tile board p v
        = setCell board ((emptyCells board).getD p (0, 0)).1 ((emptyCells board).getD p (0, 0)).2
            (if v = 1 then 4 else 2) := by
      simp only [spawn_tile, List.isEmpty_iff, h, if_false]
    by_cases hp : p < (emptyCells board).length
    · have hg : (emptyCells board).getD p (0, 0) = (emptyCells board)[p] := by
        rw [List.getD_eq_getElem?_getD, List.getElem?_eq_getElem hp]
        rfl
      obtain ⟨hr, hc, _⟩ := (mem_emptyCells board _).1 (List.getElem_mem hp)
      rw [hg] at hs
      exact ⟨_, _, hr, hc, hs⟩
    · have hg : (emptyCells board).getD p (0, 0) = (0, 0) := by
        rw [List.getD_eq_getElem?_getD, List.getElem?_eq_none (by omega)]
        rfl
      rw [hg] at hs
      exact ⟨0, 0, by omega, by omega, hs⟩

theorem isBoard_spawn_tile (board : Board) (hb : isBoard board) (p : Nat) (v : Int) :
    isBoard (spawn_tile board p v) := by
  rcases spawn_tile_cases board p v with h | ⟨r, c, _, _, h⟩ <;> rw [h]
  · exact hb
  · exact isBoard_setCell board hb r c _

theorem spawn_tile_keeps (P : Int → Prop) (h2 : P 2) (h4 : P 4) (board : Board)
    (hb : isBoard board) (hc : ∀ i j, i < 4 → j < 4 → P (cell board i j)) (p : Nat) (v : Int) :
    ∀ i j, i < 4 → j < 4 → P (cell (spawn_tile board p v) i j) := by
  intro i j hi hj
  rcases spawn_tile_cases board p v with h | ⟨r, c, hr, hc2, h⟩ <;> rw [h]
  · exact hc i j hi hj
  · rw [cell_setCell board hb r c hr hc2]
    split_ifs
    · exact h4
    · exact h2
    · exact hc i j hi hj

theorem isTile_zero : isTile 0 := Or.inl rfl

theorem isTile_double (y : Int) (h : isTile y ∧ y < 1073741824) : isTile (wrap32 (y * 2)) := by
  obtain ⟨h, hlt⟩ := h
  rcases h with h | ⟨k, hk, h⟩
  · exact Or.inl (by rw [h]; decide)
  · have hpos : (0 : Int) < 2 ^ k := by positivity
    rw [wrap32_of_range (y * 2) (by omega) (by omega)]
    exact Or.inr ⟨k + 1, by omega, by rw [h, pow_succ]⟩

theorem isTile_two : isTile 2 := Or.inr ⟨1, le_refl 1, by norm_num⟩

theorem isTile_four : isTile 4 := Or.inr ⟨2, by omega, by norm_num⟩

/-! ## The loop keeps its history well formed -/

theorem moveCmd_true (cmd : Char) (board : Board) (h : (moveCmd cmd board).1 = true) :
    (move_left board).1 = true ∨ (move_right board).1 = true ∨ (move_up board).1 = true ∨
      (move_down board).1 = true := by
  rcases moveCmd_cases cmd board with e | e | e | e | e <;> rw [e] at h
  · exact Or.inl h
  · exact Or.inr (Or.inl h)
  · exact Or.inr (Or.inr (Or.inl h))
  · exact Or.inr (Or.inr (Or.inr h))
  · exact Bool.noConfusion h

theorem loopStep_inv (Q : Board → Prop)
    (hQ : ∀ (cmd : Char) (b : Board), isBoard b → (moveCmd cmd b).1 = true → Q b)
    (cmd : Char) (p : Nat) (v : Int) (s s1 : State) (hs : loopStep cmd p v s = some s1)
    (hb : isBoard s.board) (hh : ∀ S ∈ s.history, isBoard S ∧ Q S) :
    isBoard s1.board ∧ ∀ S ∈ s1.history, isBoard S ∧ Q S := by
  unfold loopStep at hs
  split_ifs at hs with hq hu
  · cases hs
    unfold undoStep
    cases hhist : s.history with
    | nil => exact ⟨hb, hh⟩
    | cons top rest =>
      rw [hhist] at hh
      exact ⟨(hh top (List.mem_cons_self _ _)).1, fun S hS => hh S (List.mem_cons_of_mem _ hS)⟩
  · cases hs
    by_cases hm : (moveCmd cmd s.board).1 = true
    · rw [moveStep_changed cmd p v s hm]
      refine ⟨isBoard_spawn_tile _ (isBoard_moveCmd cmd s.board hb) p v, ?_⟩
      intro S hS
      rcases List.mem_cons.1 hS with e | e
      · rw [e]
        exact ⟨hb, hQ cmd s.board hb hm⟩
      · exact hh S e
    · have : moveStep cmd p v s = { board := (moveCmd cmd s.board).2, history := s.history } := by
        simp [moveStep, hm]
      rw [this]
      exact ⟨isBoard_moveCmd cmd s.board hb, hh⟩

theorem runLoop_inv (Q : Board → Prop)
    (hQ : ∀ (cmd : Char) (b : Board), isBoard b → (moveCmd cmd b).1 = true → Q b)
    (inputs : List Move) (s : State)
    (hb : isBoard s.board) (hh : ∀ S ∈ s.history, isBoard S ∧ Q S) :
    isBoard (runLoop inputs s).board ∧ ∀ S ∈ (runLoop inputs s).history, isBoard S ∧ Q S := by
  induction inputs generalizing s with
  | nil => exact ⟨hb, hh⟩
  | cons m rest ih =>
    rw [runLoop]
    cases hs : loopStep m.1 m.2.1 m.2.2 s with
    | none => exact ⟨hb, hh⟩
    | some s1 =>
      obtain ⟨h1, h2⟩ := loopStep_inv Q hQ m.1 m.2.1 m.2.2 s s1 hs hb hh
      exact ih s1 h1 h2

/-! ## The score -/

theorem foldl_add_mod (row : List Int) (score : Int) :
    (row.foldl (fun (score : Int) val => wrap32 (score + val)) score - (score + row.sum))
      % 4294967296 = 0 := by
  induction row generalizing score with
  | nil => simp
  | cons a t ih =>
    have h1 := ih (wrap32 (score + a))
    have h2 := wrap32_sub_mod (score + a)
    rw [List.foldl_cons, List.sum_cons]
    omega

theorem foldl_add_range (row : List Int) (score : Int)
    (h : -2147483648 ≤ score ∧ score < 2147483648) :
    -2147483648 ≤ row.foldl (fun (score : Int) val => wrap32 (score + val)) score ∧
      row.foldl (fun (score : Int) val => wrap32 (score + val)) score < 2147483648 := by
  induction row generalizing score with
  | nil => exact h
  | cons a t ih =>
    rw [List.foldl_cons]
    exact ih _ (wrap32_range _)

theorem foldl_rows_mod (board : Board) (score : Int) :
    (board.foldl
        (fun (score : Int) row => row.foldl (fun (score : Int) val => wrap32 (score + val)) score)
        score - (score + (board.map List.sum).sum)) % 4294967296 = 0 := by
  induction board generalizing score with
  | nil => simp
  | cons r t ih =>
    have h1 := ih (r.foldl (fun (score : Int) val => wrap32 (score + val)) score)
    have h2 := foldl_add_mod r score
    rw [List.foldl_cons, List.map_cons, List.sum_cons]
    omega

theorem foldl_rows_range (board : Board) (score : Int)
    (h : -2147483648 ≤ score ∧ score < 2147483648) :
    -2147483648 ≤ board.foldl
        (fun (score : Int) row => row.foldl (fun (score : Int) val => wrap32 (score + val)) score)
        score ∧
      board.foldl
        (fun (score : Int) row => row.foldl (fun (score : Int) val => wrap32 (score + val)) score)
        score < 2147483648 := by
  induction board generalizing score with
  | nil => exact h
  | cons r t ih =>
    rw [List.foldl_cons]
    exact ih _ (foldl_add_range r score h)

theorem eq_wrap32_of_mod (x y : Int) (hr : -2147483648 ≤ x ∧ x < 2147483648)
    (hm : (x - y) % 4294967296 = 0) : x = wrap32 y := by
  unfold wrap32
  omega

theorem compute_score_eq (board : Board) :
    compute_score board = wrap32 ((board.map List.sum).sum) := by
  have h1 := foldl_rows_mod board 0
  have h2 := foldl_rows_range board 0 (by omega)
  rw [zero_add] at h1
  exact eq_wrap32_of_mod _ _ h2 h1

theorem sum_map_mod (f : List Int → List Int) (hf : ∀ l, ((f l).sum - l.sum) % 4294967296 = 0)
    (board : Board) :
    (((board.map f).map List.sum).sum - (board.map List.sum).sum) % 4294967296 = 0 := by
  induction board with
  | nil => simp
  | cons r t ih =>
    have := hf r
    simp only [List.map_cons, List.sum_cons]
    omega

theorem compute_score_map (f : List Int → List Int)
    (hf : ∀ l, ((f l).sum - l.sum) % 4294967296 = 0)
    (board : Board) : compute_score (board.map f) = compute_score board := by
  rw [compute_score_eq, compute_score_eq]
  exact wrap32_congr _ _ (sum_map_mod f hf board)

theorem rightRow_sum_mod (l : List Int) : ((rightRow l).sum - l.sum) % 4294967296 = 0 := by
  have := merge_row_sum_mod l.reverse
  unfold rightRow
  rw [List.sum_reverse] at this ⊢
  exact this

theorem compute_score_columns (board : Board) (hb : isBoard board) :
    compute_score board
      = wrap32 ((getColumn board 0).sum + (getColumn board 1).sum + (getColumn board 2).sum
        + (getColumn board 3).sum) := by
  obtain ⟨r0, r1, r2, r3, rfl⟩ := length_four board hb.1
  obtain ⟨a0, a1, a2, a3, rfl⟩ := length_four r0 (hb.2 r0 (by simp))
  obtain ⟨b0, b1, b2, b3, rfl⟩ := length_four r1 (hb.2 r1 (by simp))
  obtain ⟨c0, c1, c2, c3, rfl⟩ := length_four r2 (hb.2 r2 (by simp))
  obtain ⟨d0, d1, d2, d3, rfl⟩ := length_four r3 (hb.2 r3 (by simp))
  rw [compute_score_eq]
  simp only [getColumn_eq, cell, List.getD_cons_zero, List.getD_cons_succ, List.map_cons,
    List.map_nil, List.sum_cons, List.sum_nil]
  congr 1
  ring

theorem compute_score_moveCols (f : List Int → List Int) (hfl : ∀ l, (f l).length = l.length)
    (hf : ∀ l, ((f l).sum - l.sum) % 4294967296 = 0) (board : Board) (hb : isBoard board) :
    compute_score ((List.range 4).foldl (colStep f) (false, board)).2 = compute_score board := by
  obtain ⟨h1, h2, _⟩ := moveCols_spec f hfl board hb
  rw [compute_score_columns _ h1, compute_score_columns board hb, h2 0 (by omega),
    h2 1 (by omega), h2 2 (by omega), h2 3 (by omega)]
  have e0 := hf (getColumn board 0)
  have e1 := hf (getColumn board 1)
  have e2 := hf (getColumn board 2)
  have e3 := hf (getColumn board 3)
  apply wrap32_congr
  omega

/-! ## Transposition -/

theorem transposeBoard_eq (board : Board) :
    transposeBoard board
      = [[cell board 0 0, cell board 1 0, cell board 2 0, cell board 3 0],
          [cell board 0 1, cell board 1 1, cell board 2 1, cell board 3 1],
          [cell board 0 2, cell board 1 2, cell board 2 2, cell board 3 2],
          [cell board 0 3, cell board 1 3, cell board 2 3, cell board 3 3]] :=
  rfl

theorem isBoard_transposeBoard (board : Board) : isBoard (transposeBoard board) := by
  rw [transposeBoard_eq]
  refine ⟨rfl, ?_⟩
  intro row hrow
  simp only [List.mem_cons, List.mem_singleton, List.not_mem_nil, or_false] at hrow
  rcases hrow with h | h | h | h <;> rw [h] <;> rfl

theorem cell_transposeBoard (board : Board) (i j : Nat) (hi : i < 4) (hj : j < 4) :
    cell (transposeBoard board) i j = cell board j i := by
  rw [transposeBoard_eq]
  have h1 : i = 0 ∨ i = 1 ∨ i = 2 ∨ i = 3 := by omega
  have h2 : j = 0 ∨ j = 1 ∨ j = 2 ∨ j = 3 := by omega
  rcases h1 with rfl | rfl | rfl | rfl <;> rcases h2 with rfl | rfl | rfl | rfl <;> rfl

theorem getColumn_transposeBoard (board : Board) (hb : isBoard board) (j : Nat) (hj : j < 4) :
    getColumn (transposeBoard board) j = board.getD j [] := by
  apply row_ext _ _ (getColumn_length _ _) (isBoard_row_length board hb j hj)
  intro i hi
  rw [column_get _ i j hi, cell_transposeBoard board i j hi hj]
  rfl

theorem any_iff_exists_row (f : List Int → List Int) (board : Board) (hb : isBoard board) :
    board.any (fun row => decide (row ≠ f row)) = true ↔
      ∃ j, j < 4 ∧ f (board.getD j []) ≠ board.getD j [] := by
  rw [List.any_eq_true]
  constructor
  · rintro ⟨row, hrow, h⟩
    obtain ⟨j, hj, rfl⟩ := mem_board_getD board hb row hrow
    exact ⟨j, hj, fun e => (of_decide_eq_true h) e.symm⟩
  · rintro ⟨j, hj, h⟩
    have hlen : j < board.length := by rw [hb.1]; exact hj
    refine ⟨board.getD j [], ?_, decide_eq_true (fun e => h e.symm)⟩
    rw [List.getD_eq_getElem?_getD, List.getElem?_eq_getElem hlen]
    exact List.getElem_mem hlen

theorem moveCols_transpose (f : List Int → List Int) (hfl : ∀ l, (f l).length = l.length)
    (board : Board) (hb : isBoard board) :
    (List.range 4).foldl (colStep f) (false, transposeBoard board)
      = ((moveRows f board).1, transposeBoard (moveRows f board).2) := by
  obtain ⟨h1, h2, h3⟩ := moveCols_spec f hfl (transposeBoard board) (isBoard_transposeBoard board)
  have hrows : (moveRows f board).2 = board.map f := by rw [moveRows_eq]
  have hflag : (moveRows f board).1 = board.any (fun row => decide (row ≠ f row)) := by
    rw [moveRows_eq]
  apply Prod.ext
  · show _ = (moveRows f board).1
    rw [Bool.eq_iff_iff, h3, hflag, any_iff_exists_row f board hb]
    constructor
    · rintro ⟨j, hj, h⟩
      rw [getColumn_transposeBoard board hb j hj] at h
      exact ⟨j, hj, h⟩
    · rintro ⟨j, hj, h⟩
      refine ⟨j, hj, ?_⟩
      rw [getColumn_transposeBoard board hb j hj]
      exact h
  · show _ = transposeBoard (moveRows f board).2
    apply board_ext _ _ h1 (isBoard_transposeBoard _)
    intro i j hi hj
    rw [cell_transposeBoard _ i j hi hj, hrows, cell_map f board hb j i hj,
      ← column_get _ i j hi, h2 j hj, getColumn_transposeBoard board hb j hj]

/-! ## The row transform -/

/-- C1 (as stated, refuted): on the row `[2^30, 2^30, 0, 0]` the doubling
overflows the 32-bit `int`: `merge_row` gives `[-2^31, 0, 0, 0]` where the
reference gives `[2^31, 0, 0, 0]`; on `[-2^31, 0, -2^31, 7]` the doubled value
wraps to 0 and `merge_row` gives `[7, 0, 0, 0]` where the reference gives
`[-2^32, 7, 0, 0]`. -/
theorem merge_row_differs_from_reference_on_overflow :
    ([1073741824, 1073741824, 0, 0] : List Int).length = 4 ∧
      merge_row [1073741824, 1073741824, 0, 0] = [-2147483648, 0, 0, 0] ∧
      merge_row_ref [1073741824, 1073741824, 0, 0] = [2147483648, 0, 0, 0] ∧
      merge_row [1073741824, 1073741824, 0, 0] ≠ merge_row_ref [1073741824, 1073741824, 0, 0] ∧
      merge_row [-2147483648, 0, -2147483648, 7] = [7, 0, 0, 0] ∧
      merge_row_ref [-2147483648, 0, -2147483648, 7] = [-4294967296, 7, 0, 0] := by
  decide

/-- C1 (amended): on every row of 4 integers whose entries lie in
`-2^30 .. 2^30 - 1` (so that no doubling overflows), `merge_row` equals the
reference (the non-zero entries in order, scanned greedily so that an equal
leading pair is replaced by twice its value and both entries are skipped,
padded with zeros to length 4); a merged value is not merged again:
`[2,0,2,2]` gives `[4,2,0,0]` and `[2,2,0,0]` gives `[4,0,0,0]`. -/
theorem merge_row_matches_reference_in_range (r : List Int) (h : r.length = 4)
    (hr : ∀ y ∈ r, -1073741824 ≤ y ∧ y < 1073741824) :
    merge_row r = merge_row_ref r ∧
      merge_row [2, 0, 2, 2] = [4, 2, 0, 0] ∧ merge_row [2, 2, 0, 0] = [4, 0, 0, 0] :=
  ⟨merge_row_eq_ref r h hr, by decide, by decide⟩

theorem merge_row_matches_reference_in_range_witness :
    ([2, 2, 2, 2] : List Int).length = 4 ∧
      (∀ y ∈ ([2, 2, 2, 2] : List Int), -1073741824 ≤ y ∧ y < 1073741824) ∧
      (merge_row [2, 2, 2, 2] = merge_row_ref [2, 2, 2, 2] ∧
        merge_row [2, 0, 2, 2] = [4, 2, 0, 0] ∧ merge_row [2, 2, 0, 0] = [4, 0, 0, 0]) :=
  ⟨by decide, by decide, merge_row_matches_reference_in_range [2, 2, 2, 2] (by decide) (by decide)⟩

/-- C2 (as stated, refuted): `merge_row` is not idempotent: the row `[2,2,4,0]`
becomes `[4,4,0,0]`, and `merge_row` of that is `[8,0,0,0]`. -/
theorem merge_row_not_idempotent :
    ([2, 2, 4, 0] : List Int).length = 4 ∧
      merge_row [2, 2, 4, 0] = [4, 4, 0, 0] ∧
      merge_row (merge_row [2, 2, 4, 0]) = [8, 0, 0, 0] ∧
      merge_row (merge_row [2, 2, 4, 0]) ≠ merge_row [2, 2, 4, 0] := by
  decide

/-- C2 (amended): for a row `r` of 4 integers, applying `merge_row` to
`merge_row r` gives `merge_row r` again exactly when `merge_row r` has no two
adjacent entries that are equal and non-zero. -/
theorem merge_row_idempotent_iff (r : List Int) (h : r.length = 4) :
    merge_row (merge_row r) = merge_row r ↔
      ¬ ∃ i, i + 1 < 4 ∧ (merge_row r).getD i 0 ≠ 0 ∧
        (merge_row r).getD i 0 = (merge_row r).getD (i + 1) 0 := by
  obtain ⟨x, y, z, w, ho⟩ := length_four (merge_row r) (by rw [merge_row_length, h])
  rw [merge_row_twice_iff, ho]
  exact hasEqualPair_four x y z w

theorem merge_row_idempotent_iff_witness :
    ([2, 0, 2, 2] : List Int).length = 4 ∧
      (merge_row (merge_row [2, 0, 2, 2]) = merge_row [2, 0, 2, 2] ↔
        ¬ ∃ i, i + 1 < 4 ∧ (merge_row [2, 0, 2, 2]).getD i 0 ≠ 0 ∧
          (merge_row [2, 0, 2, 2]).getD i 0 = (merge_row [2, 0, 2, 2]).getD (i + 1) 0) :=
  ⟨by decide, merge_row_idempotent_iff [2, 0, 2, 2] (by decide)⟩

/-- C3 (as stated, refuted): on the row `[2^30, 2^30, 0, 0]`, of sum `2^31`,
`merge_row` gives `[-2^31, 0, 0, 0]`, of sum `-2^31`. -/
theorem merge_row_changes_sum_on_overflow :
    ([1073741824, 1073741824, 0, 0] : List Int).length = 4 ∧
      merge_row [1073741824, 1073741824, 0, 0] = [-2147483648, 0, 0, 0] ∧
      (merge_row [1073741824, 1073741824, 0, 0]).sum = -2147483648 ∧
      ([1073741824, 1073741824, 0, 0] : List Int).sum = 2147483648 ∧
      (merge_row [1073741824, 1073741824, 0, 0]).sum
        ≠ ([1073741824, 1073741824, 0, 0] : List Int).sum := by
  decide

/-- C3 (amended): for every row of 4 integers whose entries lie in
`-2^30 .. 2^30 - 1` the entries of `merge_row r` add up to the same sum as the
entries of `r`, merge or no merge; for every row of 4 integers the two sums are
the same 32-bit value (equal modulo `2^32`). -/
theorem merge_row_preserves_sum_in_range (r : List Int) (_h : r.length = 4) :
    ((∀ y ∈ r, -1073741824 ≤ y ∧ y < 1073741824) → (merge_row r).sum = r.sum) ∧
      ((merge_row r).sum - r.sum) % 4294967296 = 0 ∧
      wrap32 (merge_row r).sum = wrap32 r.sum :=
  ⟨merge_row_sum r, merge_row_sum_mod r, wrap32_congr _ _ (merge_row_sum_mod r)⟩

theorem merge_row_preserves_sum_in_range_witness :
    ([2, 2, 4, 0] : List Int).length = 4 ∧
      (∀ y ∈ ([2, 2, 4, 0] : List Int), -1073741824 ≤ y ∧ y < 1073741824) ∧
      (merge_row [2, 2, 4, 0]).sum = ([2, 2, 4, 0] : List Int).sum :=
  ⟨by decide, by decide,
    (merge_row_preserves_sum_in_range [2, 2, 4, 0] (by decide)).1 (by decide)⟩

/-- C4: for every row of 4 integers the zeros of `merge_row r` are at the
tail: there are no indices `i < j` with a zero at `i` and a non-zero at `j`. -/
theorem merge_row_zeros_at_tail (r : List Int) (h : r.length = 4) :
    (merge_row r).length = 4 ∧
      ¬ ∃ i j, i < j ∧ j < 4 ∧ (merge_row r).getD i 0 = 0 ∧ (merge_row r).getD j 0 ≠ 0 := by
  refine ⟨by rw [merge_row_length, h], ?_⟩
  rintro ⟨i, j, hij, _, hi, hj⟩
  exact hj (compress_row_tail_zero _ i j hij hi)

theorem merge_row_zeros_at_tail_witness :
    ([0, 2, 0, 2] : List Int).length = 4 ∧
      ((merge_row [0, 2, 0, 2]).length = 4 ∧
        ¬ ∃ i j, i < j ∧ j < 4 ∧ (merge_row [0, 2, 0, 2]).getD i 0 = 0 ∧
          (merge_row [0, 2, 0, 2]).getD j 0 ≠ 0) :=
  ⟨by decide, merge_row_zeros_at_tail [0, 2, 0, 2] (by decide)⟩

/-! ## Moves and the changed flag -/

/-- C5: on every 4x4 board, for each of `move_left`, `move_right`, `move_up`
and `move_down`, the returned flag is true exactly when the board after the
call differs from the board before it in at least one cell. -/
theorem move_flag_iff_cell_differs (board : Board) (hb : isBoard board) :
    ((move_left board).1 = true ↔
        ∃ i j, i < 4 ∧ j < 4 ∧ cell (move_left board).2 i j ≠ cell board i j) ∧
      ((move_right board).1 = true ↔
        ∃ i j, i < 4 ∧ j < 4 ∧ cell (move_right board).2 i j ≠ cell board i j) ∧
      ((move_up board).1 = true ↔
        ∃ i j, i < 4 ∧ j < 4 ∧ cell (move_up board).2 i j ≠ cell board i j) ∧
      ((move_down board).1 = true ↔
        ∃ i j, i < 4 ∧ j < 4 ∧ cell (move_down board).2 i j ≠ cell board i j) :=
  ⟨(moveRows_flag merge_row merge_row_length board hb).2,
    (moveRows_flag rightRow rightRow_length board hb).2,
    moveCols_flag merge_row merge_row_length board hb,
    moveCols_flag downColumn downColumn_length board hb⟩

theorem move_flag_iff_cell_differs_witness :
    isBoard [[0, 2, 0, 0], [2, 2, 4, 0], [2, 0, 0, 8], [2, 4, 4, 4]] ∧
      (((move_left [[0, 2, 0, 0], [2, 2, 4, 0], [2, 0, 0, 8], [2, 4, 4, 4]]).1 = true ↔
          ∃ i j, i < 4 ∧ j < 4 ∧
            cell (move_left [[0, 2, 0, 0], [2, 2, 4, 0], [2, 0, 0, 8], [2, 4, 4, 4]]).2 i j
              ≠ cell [[0, 2, 0, 0], [2, 2, 4, 0], [2, 0, 0, 8], [2, 4, 4, 4]] i j) ∧
        ((move_right [[0, 2, 0, 0], [2, 2, 4, 0], [2, 0, 0, 8], [2, 4, 4, 4]]).1 = true ↔
          ∃ i j, i < 4 ∧ j < 4 ∧
            cell (move_right [[0, 2, 0, 0], [2, 2, 4, 0], [2, 0, 0, 8], [2, 4, 4, 4]]).2 i j
              ≠ cell [[0, 2, 0, 0], [2, 2, 4, 0], [2, 0, 0, 8], [2, 4, 4, 4]] i j) ∧
        ((move_up [[0, 2, 0, 0], [2, 2, 4, 0], [2, 0, 0, 8], [2, 4, 4, 4]]).1 = true ↔
          ∃ i j, i < 4 ∧ j < 4 ∧
            cell (move_up [[0, 2, 0, 0], [2, 2, 4, 0], [2, 0, 0, 8], [2, 4, 4, 4]]).2 i j
              ≠ cell [[0, 2, 0, 0], [2, 2, 4, 0], [2, 0, 0, 8], [2, 4, 4, 4]] i j) ∧
        ((move_down [[0, 2, 0, 0], [2, 2, 4, 0], [2, 0, 0, 8], [2, 4, 4, 4]]).1 = true ↔
          ∃ i j, i < 4 ∧ j < 4 ∧
            cell (move_down [[0, 2, 0, 0], [2, 2, 4, 0], [2, 0, 0, 8], [2, 4, 4, 4]]).2 i j
              ≠ cell [[0, 2, 0, 0], [2, 2, 4, 0], [2, 0, 0, 8], [2, 4, 4, 4]] i j)) :=
  ⟨by decide, move_flag_iff_cell_differs _ (by decide)⟩

/-! ## Undo -/

/-- C6: when the move for command `cmd` reports a change on the board of
state `s`, the move step of the loop (snapshot pushed, move, spawn with any
draws) followed at once by undo gives back `s`: the board cell for cell and
the history stack as it was before the move. -/
theorem undo_after_move_restores (cmd : Char) (p : Nat) (v : Int) (s : State)
    (hm : (moveCmd cmd s.board).1 = true) :
    (undoStep (moveStep cmd p v s)).board = s.board ∧
      (undoStep (moveStep cmd p v s)).history = s.history ∧
      undoStep (moveStep cmd p v s) = s := by
  rw [moveStep_changed cmd p v s hm]
  exact ⟨rfl, rfl, rfl⟩

theorem undo_after_move_restores_witness :
    (moveCmd 'w' (State.mk [[0, 2, 0, 0], [2, 2, 4, 0], [2, 0, 0, 8], [2, 4, 4, 4]] []).board).1
        = true ∧
      ((undoStep (moveStep 'w' 0 2
            (State.mk [[0, 2, 0, 0], [2, 2, 4, 0], [2, 0, 0, 8], [2, 4, 4, 4]] []))).board
          = (State.mk [[0, 2, 0, 0], [2, 2, 4, 0], [2, 0, 0, 8], [2, 4, 4, 4]] []).board ∧
        (undoStep (moveStep 'w' 0 2
            (State.mk [[0, 2, 0, 0], [2, 2, 4, 0], [2, 0, 0, 8], [2, 4, 4, 4]] []))).history
          = (State.mk [[0, 2, 0, 0], [2, 2, 4, 0], [2, 0, 0, 8], [2, 4, 4, 4]] []).history ∧
        undoStep (moveStep 'w' 0 2
            (State.mk [[0, 2, 0, 0], [2, 2, 4, 0], [2, 0, 0, 8], [2, 4, 4, 4]] []))
          = State.mk [[0, 2, 0, 0], [2, 2, 4, 0], [2, 0, 0, 8], [2, 4, 4, 4]] []) :=
  ⟨by decide, undo_after_move_restores 'w' 0 2 _ (by decide)⟩

/-- C7: from a state with empty history, after the move steps `moves`, all of
which report a change, the history holds the boards that preceded the moves,
the latest on top; the undo number `j + 1` sets the board to the board that
preceded move number `k - 1 - j` (with `k` the number of moves) and leaves
exactly the snapshots of the earlier moves on the stack; after `k` undos the
history is empty and further undos change neither board nor history. -/
theorem undo_walks_back_history (moves : List Move) (s0 : State) (h0 : s0.history = [])
    (hch : allChanged moves s0 = true) :
    (preBoards moves s0).length = moves.length ∧
      (runMoves moves s0).history = (preBoards moves s0).reverse ∧
      (∀ j, j < moves.length →
        some (undoN (j + 1) (runMoves moves s0)).board
            = (preBoards moves s0)[moves.length - 1 - j]? ∧
          (undoN (j + 1) (runMoves moves s0)).history
            = ((preBoards moves s0).take (moves.length - 1 - j)).reverse) ∧
      (undoN moves.length (runMoves moves s0)).history = [] ∧
      (∀ n, undoN (moves.length + n) (runMoves moves s0)
          = undoN moves.length (runMoves moves s0)) := by
  have hlen := preBoards_length moves s0
  have hh : (runMoves moves s0).history = (preBoards moves s0).reverse := by
    rw [runMoves_history moves s0 hch, h0, List.append_nil]
  have hend : (undoN moves.length (runMoves moves s0)).history = [] := by
    rw [undoN_history, hh, List.drop_eq_nil_iff]
    simp [hlen]
  refine ⟨hlen, hh, ?_, hend, ?_⟩
  · intro j hj
    constructor
    · rw [undoN_board j _ (by rw [hh, List.length_reverse, hlen]; exact hj), hh,
        List.getElem?_reverse (by rw [hlen]; exact hj), hlen]
    · rw [undoN_history, hh, List.drop_reverse, hlen]
      congr 2
      omega
  · intro n
    rw [undoN_add, undoN_nil n _ hend]

theorem undo_walks_back_history_witness :
    (State.mk [[0, 2, 0, 0], [2, 2, 4, 0], [2, 0, 0, 8], [2, 4, 4, 4]] []).history = [] ∧
      allChanged [('w', 0, 2), ('a', 1, 1)]
        (State.mk [[0, 2, 0, 0], [2, 2, 4, 0], [2, 0, 0, 8], [2, 4, 4, 4]] []) = true ∧
      undoN 2 (runMoves [('w', 0, 2), ('a', 1, 1)]
        (State.mk [[0, 2, 0, 0], [2, 2, 4, 0], [2, 0, 0, 8], [2, 4, 4, 4]] []))
        = State.mk [[0, 2, 0, 0], [2, 2, 4, 0], [2, 0, 0, 8], [2, 4, 4, 4]] [] ∧
      (undoN (2 + 1) (runMoves [('w', 0, 2), ('a', 1, 1)]
        (State.mk [[0, 2, 0, 0], [2, 2, 4, 0], [2, 0, 0, 8], [2, 4, 4, 4]] []))
        = undoN 2 (runMoves [('w', 0, 2), ('a', 1, 1)]
        (State.mk [[0, 2, 0, 0], [2, 2, 4, 0], [2, 0, 0, 8], [2, 4, 4, 4]] []))) :=
  ⟨rfl, by decide, by decide,
    (undo_walks_back_history [('w', 0, 2), ('a', 1, 1)]
      (State.mk [[0, 2, 0, 0], [2, 2, 4, 0], [2, 0, 0, 8], [2, 4, 4, 4]] []) rfl
      (by decide)).2.2.2.2 1⟩

/-- C8: when the move for command `cmd` reports no change on a 4x4 board,
the move step of the loop leaves the state as it was: nothing is pushed on the
history, no tile is spawned, and the board returned by the move function is
the board it was given, so every cell keeps its value. -/
theorem unchanged_move_leaves_state (cmd : Char) (p : Nat) (v : Int) (s : State)
    (hb : isBoard s.board) (hm : (moveCmd cmd s.board).1 = false) :
    (moveCmd cmd s.board).2 = s.board ∧
      (moveStep cmd p v s).history = s.history ∧
      (moveStep cmd p v s).board = s.board ∧
      (∀ i j, cell (moveStep cmd p v s).board i j = cell s.board i j) := by
  have hu := moveCmd_unchanged cmd s.board hb hm
  have hs : moveStep cmd p v s = { board := (moveCmd cmd s.board).2, history := s.history } := by
    simp [moveStep, hm]
  rw [hs, hu]
  exact ⟨rfl, rfl, rfl, fun _ _ => rfl⟩

theorem unchanged_move_leaves_state_witness :
    isBoard (State.mk [[2, 4, 2, 4], [4, 2, 4, 2], [0, 0, 0, 0], [0, 0, 0, 0]]
        [[[2, 4, 2, 4], [0, 0, 0, 0], [4, 2, 4, 2], [0, 0, 0, 0]]]).board ∧
      (moveCmd 'w' (State.mk [[2, 4, 2, 4], [4, 2, 4, 2], [0, 0, 0, 0], [0, 0, 0, 0]]
        [[[2, 4, 2, 4], [0, 0, 0, 0], [4, 2, 4, 2], [0, 0, 0, 0]]]).board).1 = false ∧
      (moveStep 'w' 0 2 (State.mk [[2, 4, 2, 4], [4, 2, 4, 2], [0, 0, 0, 0], [0, 0, 0, 0]]
        [[[2, 4, 2, 4], [0, 0, 0, 0], [4, 2, 4, 2], [0, 0, 0, 0]]])).history
        = [[[2, 4, 2, 4], [0, 0, 0, 0], [4, 2, 4, 2], [0, 0, 0, 0]]] ∧
      (moveStep 'w' 0 2 (State.mk [[2, 4, 2, 4], [4, 2, 4, 2], [0, 0, 0, 0], [0, 0, 0, 0]]
        [[[2, 4, 2, 4], [0, 0, 0, 0], [4, 2, 4, 2], [0, 0, 0, 0]]])).board
        = [[2, 4, 2, 4], [4, 2, 4, 2], [0, 0, 0, 0], [0, 0, 0, 0]] :=
  ⟨by decide, by decide,
    (unchanged_move_leaves_state 'w' 0 2
      (State.mk [[2, 4, 2, 4], [4, 2, 4, 2], [0, 0, 0, 0], [0, 0, 0, 0]]
        [[[2, 4, 2, 4], [0, 0, 0, 0], [4, 2, 4, 2], [0, 0, 0, 0]]])
      (by decide) (by decide)).2.1,
    (unchanged_move_leaves_state 'w' 0 2
      (State.mk [[2, 4, 2, 4], [4, 2, 4, 2], [0, 0, 0, 0], [0, 0, 0, 0]]
        [[[2, 4, 2, 4], [0, 0, 0, 0], [4, 2, 4, 2], [0, 0, 0, 0]]])
      (by decide) (by decide)).2.2.1⟩

/-- C9: on a 4x4 board, whatever the draws (the position draw `p` lying
below the number of empty cells when there is one), `spawn_tile` leaves a board
with no zero cell unchanged, and otherwise changes exactly one cell: that cell
held 0 before the call, holds 2 or 4 after it, and every other cell keeps its
value. -/
theorem spawn_tile_writes_one_empty_cell (board : Board) (hb : isBoard board) (p : Nat) (v : Int)
    (hp : emptyCells board ≠ [] → p < (emptyCells board).length) :
    ((∀ i j, i < 4 → j < 4 → cell board i j ≠ 0) → spawn_tile board p v = board) ∧
      ((∃ i j, i < 4 ∧ j < 4 ∧ cell board i j = 0) →
        ∃ r c, r < 4 ∧ c < 4 ∧ cell board r c = 0 ∧
          (cell (spawn_tile board p v) r c = 2 ∨ cell (spawn_tile board p v) r c = 4) ∧
          ∀ i j, (i ≠ r ∨ j ≠ c) → cell (spawn_tile board p v) i j = cell board i j) := by
  constructor
  · intro hfull
    exact spawn_tile_full board p v ((emptyCells_eq_nil board).2 hfull)
  · rintro ⟨i0, j0, hi0, hj0, hz⟩
    have hne : emptyCells board ≠ [] := fun h => (emptyCells_eq_nil board).1 h i0 j0 hi0 hj0 hz
    have hlt := hp hne
    obtain ⟨hr, hc, hcell⟩ := (mem_emptyCells board _).1 (List.getElem_mem hlt)
    refine ⟨((emptyCells board)[p]).1, ((emptyCells board)[p]).2, hr, hc, hcell, ?_, ?_⟩
    · rw [spawn_tile_some board p v hne hlt, cell_setCell board hb _ _ hr hc, if_pos ⟨rfl, rfl⟩]
      by_cases hv : v = 1
      · exact Or.inr (by rw [if_pos hv])
      · exact Or.inl (by rw [if_neg hv])
    · intro i j hij
      rw [spawn_tile_some board p v hne hlt, cell_setCell board hb _ _ hr hc, if_neg]
      rintro ⟨h1, h2⟩
      rcases hij with h | h
      · exact h h1
      · exact h h2

theorem spawn_tile_writes_one_empty_cell_witness :
    isBoard [[0, 2, 0, 0], [2, 2, 4, 0], [2, 0, 0, 8], [2, 4, 4, 4]] ∧
      (emptyCells [[0, 2, 0, 0], [2, 2, 4, 0], [2, 0, 0, 8], [2, 4, 4, 4]] ≠ [] →
        3 < (emptyCells [[0, 2, 0, 0], [2, 2, 4, 0], [2, 0, 0, 8], [2, 4, 4, 4]]).length) ∧
      spawn_tile [[0, 2, 0, 0], [2, 2, 4, 0], [2, 0, 0, 8], [2, 4, 4, 4]] 3 1
        = [[0, 2, 0, 0], [2, 2, 4, 4], [2, 0, 0, 8], [2, 4, 4, 4]] ∧
      ((∃ i j, i < 4 ∧ j < 4 ∧ cell [[0, 2, 0, 0], [2, 2, 4, 0], [2, 0, 0, 8], [2, 4, 4, 4]] i j = 0) →
        ∃ r c, r < 4 ∧ c < 4 ∧ cell [[0, 2, 0, 0], [2, 2, 4, 0], [2, 0, 0, 8], [2, 4, 4, 4]] r c = 0 ∧
          (cell (spawn_tile [[0, 2, 0, 0], [2, 2, 4, 0], [2, 0, 0, 8], [2, 4, 4, 4]] 3 1) r c = 2 ∨
            cell (spawn_tile [[0, 2, 0, 0], [2, 2, 4, 0], [2, 0, 0, 8], [2, 4, 4, 4]] 3 1) r c = 4) ∧
          ∀ i j, (i ≠ r ∨ j ≠ c) →
            cell (spawn_tile [[0, 2, 0, 0], [2, 2, 4, 0], [2, 0, 0, 8], [2, 4, 4, 4]] 3 1) i j
              = cell [[0, 2, 0, 0], [2, 2, 4, 0], [2, 0, 0, 8], [2, 4, 4, 4]] i j) :=
  ⟨by decide, fun _ => by decide, by decide,
    (spawn_tile_writes_one_empty_cell [[0, 2, 0, 0], [2, 2, 4, 0], [2, 0, 0, 8], [2, 4, 4, 4]]
      (by decide) 3 1 (fun _ => by decide)).2⟩

/-- C10: on a 4x4 board, after `move_up` every column, read top to bottom,
equals `merge_row` of the same column of the input board read top to bottom,
whether or not `move_up` wrote the column back; the column `[0,2,2,2]` becomes
`[4,2,0,0]`. -/
theorem move_up_columns (board : Board) (hb : isBoard board) :
    (∀ j, j < 4 →
        [cell (move_up board).2 0 j, cell (move_up board).2 1 j, cell (move_up board).2 2 j,
            cell (move_up board).2 3 j]
          = merge_row [cell board 0 j, cell board 1 j, cell board 2 j, cell board 3 j]) ∧
      merge_row [0, 2, 2, 2] = [4, 2, 0, 0] := by
  refine ⟨fun j hj => ?_, by decide⟩
  have := (moveCols_spec merge_row merge_row_length board hb).2.1 j hj
  rw [← move_up_eq] at this
  exact this

theorem move_up_columns_witness :
    isBoard [[0, 2, 0, 0], [2, 2, 4, 0], [2, 0, 0, 8], [2, 4, 4, 4]] ∧
      (move_up [[0, 2, 0, 0], [2, 2, 4, 0], [2, 0, 0, 8], [2, 4, 4, 4]]).2
        = [[4, 4, 8, 8], [2, 4, 0, 4], [0, 0, 0, 0], [0, 0, 0, 0]] ∧
      ((∀ j, j < 4 →
          [cell (move_up [[0, 2, 0, 0], [2, 2, 4, 0], [2, 0, 0, 8], [2, 4, 4, 4]]).2 0 j,
              cell (move_up [[0, 2, 0, 0], [2, 2, 4, 0], [2, 0, 0, 8], [2, 4, 4, 4]]).2 1 j,
              cell (move_up [[0, 2, 0, 0], [2, 2, 4, 0], [2, 0, 0, 8], [2, 4, 4, 4]]).2 2 j,
              cell (move_up [[0, 2, 0, 0], [2, 2, 4, 0], [2, 0, 0, 8], [2, 4, 4, 4]]).2 3 j]
            = merge_row [cell [[0, 2, 0, 0], [2, 2, 4, 0], [2, 0, 0, 8], [2, 4, 4, 4]] 0 j,
                cell [[0, 2, 0, 0], [2, 2, 4, 0], [2, 0, 0, 8], [2, 4, 4, 4]] 1 j,
                cell [[0, 2, 0, 0], [2, 2, 4, 0], [2, 0, 0, 8], [2, 4, 4, 4]] 2 j,
                cell [[0, 2, 0, 0], [2, 2, 4, 0], [2, 0, 0, 8], [2, 4, 4, 4]] 3 j]) ∧
        merge_row [0, 2, 2, 2] = [4, 2, 0, 0]) :=
  ⟨by decide, by decide,
    move_up_columns [[0, 2, 0, 0], [2, 2, 4, 0], [2, 0, 0, 8], [2, 4, 4, 4]] (by decide)⟩

/-! ## Down and right -/

/-- C11: on a 4x4 board, after `move_down` every column, read top to bottom,
equals the reverse of `merge_row` of the reversed input column; the
compress, merge loop, compress sequence written out in `move_down` is the
function `merge_row`. -/
theorem move_down_columns (board : Board) (hb : isBoard board) :
    (∀ j, j < 4 →
        [cell (move_down board).2 0 j, cell (move_down board).2 1 j, cell (move_down board).2 2 j,
            cell (move_down board).2 3 j]
          = (merge_row [cell board 0 j, cell board 1 j, cell board 2 j,
              cell board 3 j].reverse).reverse) ∧
      (∀ column : List Int,
        compress_row (mergeLoop (compress_row column)) = merge_row column) := by
  refine ⟨fun j hj => ?_, fun _ => rfl⟩
  have := (moveCols_spec downColumn downColumn_length board hb).2.1 j hj
  rw [← move_down_eq] at this
  exact this

theorem move_down_columns_witness :
    isBoard [[0, 2, 0, 0], [2, 2, 4, 0], [2, 0, 0, 8], [2, 4, 4, 4]] ∧
      (move_down [[0, 2, 0, 0], [2, 2, 4, 0], [2, 0, 0, 8], [2, 4, 4, 4]]).2
        = [[0, 0, 0, 0], [0, 0, 0, 0], [2, 4, 0, 8], [4, 4, 8, 4]] ∧
      ((∀ j, j < 4 →
          [cell (move_down [[0, 2, 0, 0], [2, 2, 4, 0], [2, 0, 0, 8], [2, 4, 4, 4]]).2 0 j,
              cell (move_down [[0, 2, 0, 0], [2, 2, 4, 0], [2, 0, 0, 8], [2, 4, 4, 4]]).2 1 j,
              cell (move_down [[0, 2, 0, 0], [2, 2, 4, 0], [2, 0, 0, 8], [2, 4, 4, 4]]).2 2 j,
              cell (move_down [[0, 2, 0, 0], [2, 2, 4, 0], [2, 0, 0, 8], [2, 4, 4, 4]]).2 3 j]
            = (merge_row [cell [[0, 2, 0, 0], [2, 2, 4, 0], [2, 0, 0, 8], [2, 4, 4, 4]] 0 j,
                cell [[0, 2, 0, 0], [2, 2, 4, 0], [2, 0, 0, 8], [2, 4, 4, 4]] 1 j,
                cell [[0, 2, 0, 0], [2, 2, 4, 0], [2, 0, 0, 8], [2, 4, 4, 4]] 2 j,
                cell [[0, 2, 0, 0], [2, 2, 4, 0], [2, 0, 0, 8], [2, 4, 4, 4]] 3 j].reverse).reverse) ∧
        (∀ column : List Int,
          compress_row (mergeLoop (compress_row column)) = merge_row column)) :=
  ⟨by decide, by decide,
    move_down_columns [[0, 2, 0, 0], [2, 2, 4, 0], [2, 0, 0, 8], [2, 4, 4, 4]] (by decide)⟩

/-- C12: on a 4x4 board, after `move_right` every row equals the reverse of
`merge_row` of the reversed input row, so in every row of the result no
non-zero cell stands left of a zero cell (tiles pack toward index 3) and the
rightmost equal pair merges first: `[2,2,2,0]` becomes `[0,0,2,4]`. -/
theorem move_right_rows (board : Board) (hb : isBoard board) :
    (∀ i, i < 4 →
        (move_right board).2.getD i [] = (merge_row (board.getD i []).reverse).reverse) ∧
      (∀ i j k, i < 4 → j < k → k < 4 →
        cell (move_right board).2 i k = 0 → cell (move_right board).2 i j = 0) ∧
      (merge_row ([2, 2, 2, 0] : List Int).reverse).reverse = [0, 0, 2, 4] := by
  have hm : (move_right board).2 = board.map rightRow := by
    rw [move_right_eq, moveRows_eq]
  refine ⟨fun i hi => ?_, fun i j k hi hjk hk hz => ?_, by decide⟩
  · rw [hm, getD_map_of_lt rightRow board i (by rw [hb.1]; exact hi)]
    rfl
  · rw [hm, cell_map rightRow board hb i _ hi] at hz ⊢
    exact rightRow_head_zero _ (isBoard_row_length board hb i hi) j k hjk hk hz

theorem move_right_rows_witness :
    isBoard [[2, 2, 2, 0], [2, 2, 4, 0], [2, 0, 0, 8], [2, 4, 4, 4]] ∧
      (move_right [[2, 2, 2, 0], [2, 2, 4, 0], [2, 0, 0, 8], [2, 4, 4, 4]]).2
        = [[0, 0, 2, 4], [0, 0, 4, 4], [0, 0, 2, 8], [0, 2, 4, 8]] ∧
      (∀ i, i < 4 →
        (move_right [[2, 2, 2, 0], [2, 2, 4, 0], [2, 0, 0, 8], [2, 4, 4, 4]]).2.getD i []
          = (merge_row (([[2, 2, 2, 0], [2, 2, 4, 0], [2, 0, 0, 8], [2, 4, 4, 4]] :
              Board).getD i []).reverse).reverse) :=
  ⟨by decide, by decide,
    (move_right_rows [[2, 2, 2, 0], [2, 2, 4, 0], [2, 0, 0, 8], [2, 4, 4, 4]] (by decide)).1⟩

/-- C13: on a 4x4 board in which every row is right-aligned (a non-zero cell
has only non-zero cells to its right) and no two horizontally adjacent
non-zero cells are equal, `move_right` reports no change and returns the board
as it was. -/
theorem move_right_fixed_on_packed (board : Board) (hb : isBoard board)
    (hal : ∀ i, i < 4 → ∀ k, k < 4 → ∀ j, j < k → cell board i j ≠ 0 → cell board i k ≠ 0)
    (hne : ∀ i, i < 4 → ∀ j, j < 3 → cell board i j ≠ 0 → cell board i (j + 1) ≠ 0 →
      cell board i j ≠ cell board i (j + 1)) :
    (move_right board).1 = false ∧ (move_right board).2 = board := by
  have hfix : ∀ row ∈ board, rightRow row = row := by
    intro row hrow
    obtain ⟨i, hi, hr⟩ := mem_board_getD board hb row hrow
    obtain ⟨x, y, z, w, hxyz⟩ := length_four row (hb.2 row hrow)
    have hcell : ∀ j, cell board i j = [x, y, z, w].getD j 0 := by
      intro j
      unfold cell
      rw [← hr, hxyz]
    have a01 := hal i hi 1 (by omega) 0 (by omega)
    have a12 := hal i hi 2 (by omega) 1 (by omega)
    have a23 := hal i hi 3 (by omega) 2 (by omega)
    have e0 := hne i hi 0 (by omega)
    have e1 := hne i hi 1 (by omega)
    have e2 := hne i hi 2 (by omega)
    simp only [hcell] at a01 a12 a23 e0 e1 e2
    rw [hxyz]
    exact rightRow_fixed x y z w a01 a12 a23 e0 e1 e2
  have := moveRows_fixed rightRow board hfix
  rw [move_right_eq, this]
  exact ⟨rfl, rfl⟩

theorem move_right_fixed_on_packed_witness :
    isBoard [[0, 0, 2, 4], [0, 2, 4, 2], [0, 0, 0, 0], [2, 4, 8, 16]] ∧
      (∀ i, i < 4 → ∀ k, k < 4 → ∀ j, j < k →
        cell [[0, 0, 2, 4], [0, 2, 4, 2], [0, 0, 0, 0], [2, 4, 8, 16]] i j ≠ 0 →
        cell [[0, 0, 2, 4], [0, 2, 4, 2], [0, 0, 0, 0], [2, 4, 8, 16]] i k ≠ 0) ∧
      (∀ i, i < 4 → ∀ j, j < 3 →
        cell [[0, 0, 2, 4], [0, 2, 4, 2], [0, 0, 0, 0], [2, 4, 8, 16]] i j ≠ 0 →
        cell [[0, 0, 2, 4], [0, 2, 4, 2], [0, 0, 0, 0], [2, 4, 8, 16]] i (j + 1) ≠ 0 →
        cell [[0, 0, 2, 4], [0, 2, 4, 2], [0, 0, 0, 0], [2, 4, 8, 16]] i j
          ≠ cell [[0, 0, 2, 4], [0, 2, 4, 2], [0, 0, 0, 0], [2, 4, 8, 16]] i (j + 1)) ∧
      ((move_right [[0, 0, 2, 4], [0, 2, 4, 2], [0, 0, 0, 0], [2, 4, 8, 16]]).1 = false ∧
        (move_right [[0, 0, 2, 4], [0, 2, 4, 2], [0, 0, 0, 0], [2, 4, 8, 16]]).2
          = [[0, 0, 2, 4], [0, 2, 4, 2], [0, 0, 0, 0], [2, 4, 8, 16]]) :=
  ⟨by decide, by decide, by decide,
    move_right_fixed_on_packed [[0, 0, 2, 4], [0, 2, 4, 2], [0, 0, 0, 0], [2, 4, 8, 16]]
      (by decide) (by decide) (by decide)⟩

/-- C14: on the empty 4x4 board each of `move_left`, `move_right`, `move_up`
and `move_down` reports no change and leaves the board all zeros. -/
theorem moves_on_empty_board :
    move_left [[0, 0, 0, 0], [0, 0, 0, 0], [0, 0, 0, 0], [0, 0, 0, 0]]
        = (false, [[0, 0, 0, 0], [0, 0, 0, 0], [0, 0, 0, 0], [0, 0, 0, 0]]) ∧
      move_right [[0, 0, 0, 0], [0, 0, 0, 0], [0, 0, 0, 0], [0, 0, 0, 0]]
        = (false, [[0, 0, 0, 0], [0, 0, 0, 0], [0, 0, 0, 0], [0, 0, 0, 0]]) ∧
      move_up [[0, 0, 0, 0], [0, 0, 0, 0], [0, 0, 0, 0], [0, 0, 0, 0]]
        = (false, [[0, 0, 0, 0], [0, 0, 0, 0], [0, 0, 0, 0], [0, 0, 0, 0]]) ∧
      move_down [[0, 0, 0, 0], [0, 0, 0, 0], [0, 0, 0, 0], [0, 0, 0, 0]]
        = (false, [[0, 0, 0, 0], [0, 0, 0, 0], [0, 0, 0, 0], [0, 0, 0, 0]]) := by
  decide

/-! ## Invariants of the loop -/

/-- C15: in every state the loop of `main` reaches from a 4x4 board with an
empty history, whatever the commands and the draws, every snapshot in the
history is a 4x4 board on which one of the four move functions reports a
change. -/
theorem history_holds_boards_that_moved (inputs : List Move) (board : Board)
    (hb : isBoard board) :
    ∀ S ∈ (runLoop inputs (State.mk board [])).history,
      isBoard S ∧
        ((move_left S).1 = true ∨ (move_right S).1 = true ∨ (move_up S).1 = true ∨
          (move_down S).1 = true) :=
  (runLoop_inv
    (fun S => (move_left S).1 = true ∨ (move_right S).1 = true ∨ (move_up S).1 = true ∨
      (move_down S).1 = true)
    (fun cmd b _ h => moveCmd_true cmd b h) inputs (State.mk board []) hb
    (fun _ hS => absurd hS (List.not_mem_nil _))).2

theorem history_holds_boards_that_moved_witness :
    isBoard [[0, 2, 0, 0], [2, 2, 4, 0], [2, 0, 0, 8], [2, 4, 4, 4]] ∧
      (runLoop [('w', 0, 2), ('x', 0, 1), ('a', 1, 1)]
          (State.mk [[0, 2, 0, 0], [2, 2, 4, 0], [2, 0, 0, 8], [2, 4, 4, 4]] [])).history
        = [[[4, 4, 8, 8], [2, 4, 2, 4], [0, 0, 0, 0], [0, 0, 0, 0]],
            [[0, 2, 0, 0], [2, 2, 4, 0], [2, 0, 0, 8], [2, 4, 4, 4]]] ∧
      ∀ S ∈ (runLoop [('w', 0, 2), ('x', 0, 1), ('a', 1, 1)]
          (State.mk [[0, 2, 0, 0], [2, 2, 4, 0], [2, 0, 0, 8], [2, 4, 4, 4]] [])).history,
        isBoard S ∧
          ((move_left S).1 = true ∨ (move_right S).1 = true ∨ (move_up S).1 = true ∨
            (move_down S).1 = true) :=
  ⟨by decide, by decide,
    history_holds_boards_that_moved
      [('w', 0, 2), ('x', 0, 1), ('a', 1, 1)]
      [[0, 2, 0, 0], [2, 2, 4, 0], [2, 0, 0, 8], [2, 4, 4, 4]] (by decide)⟩

/-- C16 (as stated, refuted): the board with `2^30, 2^30, 0, 0` in its first
row and zeros elsewhere has 4 rows of 4 non-negative cells, and `move_left`
leaves `-2^31` in its first cell: the doubling overflows the 32-bit `int`. -/
theorem move_left_breaks_good_board_on_overflow :
    goodBoard [[1073741824, 1073741824, 0, 0], [0, 0, 0, 0], [0, 0, 0, 0], [0, 0, 0, 0]] ∧
      (move_left [[1073741824, 1073741824, 0, 0], [0, 0, 0, 0], [0, 0, 0, 0], [0, 0, 0, 0]]).2
        = [[-2147483648, 0, 0, 0], [0, 0, 0, 0], [0, 0, 0, 0], [0, 0, 0, 0]] ∧
      ¬ goodBoard
        (move_left [[1073741824, 1073741824, 0, 0], [0, 0, 0, 0], [0, 0, 0, 0], [0, 0, 0, 0]]).2 := by
  decide

/-- C16 (amended): on a board with 4 rows of 4 non-negative cells, each of
`move_left`, `move_right`, `move_up` and `move_down` keeps the 4x4 shape, and
keeps every cell non-negative when every cell is below `2^30`; `spawn_tile`
with any draws keeps the predicate, and so does undo when the snapshots of the
history satisfy it (for the board and for the remaining history). -/
theorem operations_keep_good_boards_in_range (board : Board) (hb : goodBoard board) :
    (isBoard (move_left board).2 ∧ isBoard (move_right board).2 ∧
        isBoard (move_up board).2 ∧ isBoard (move_down board).2) ∧
      ((∀ i, i < 4 → ∀ j, j < 4 → cell board i j < 1073741824) →
        goodBoard (move_left board).2 ∧ goodBoard (move_right board).2 ∧
          goodBoard (move_up board).2 ∧ goodBoard (move_down board).2) ∧
      (∀ (p : Nat) (v : Int), goodBoard (spawn_tile board p v)) ∧
      (∀ history : List Board, (∀ S ∈ history, goodBoard S) →
        goodBoard (undoStep (State.mk board history)).board ∧
          ∀ S ∈ (undoStep (State.mk board history)).history, goodBoard S) := by
  have hshape := And.intro (isBoard_move_left board hb.1)
    (And.intro (isBoard_move_right board hb.1)
      (And.intro (isBoard_move_up board hb.1) (isBoard_move_down board hb.1)))
  refine ⟨hshape, ?_, ?_, ?_⟩
  · intro hsmall
    have h0 : (0 : Int) ≤ 0 := le_refl 0
    have h1 : ∀ y : Int, 0 ≤ y ∧ y < 1073741824 → 0 ≤ y := fun y hy => hy.1
    have h2 : ∀ y : Int, 0 ≤ y ∧ y < 1073741824 → 0 ≤ wrap32 (y * 2) := by
      intro y hy
      rw [wrap32_of_range (y * 2) (by omega) (by omega)]
      omega
    have hc : ∀ i j, i < 4 → j < 4 → 0 ≤ cell board i j ∧ cell board i j < 1073741824 :=
      fun i j hi hj => ⟨hb.2 i hi j hj, hsmall i hi j hj⟩
    refine ⟨⟨hshape.1, ?_⟩, ⟨hshape.2.1, ?_⟩, ⟨hshape.2.2.1, ?_⟩, ⟨hshape.2.2.2, ?_⟩⟩
    · intro i hi j hj
      rw [move_left_eq]
      exact moveRows_keeps _ _ merge_row merge_row_length (merge_row_keeps _ _ h0 h1 h2) board
        hb.1 hc i j hi hj
    · intro i hi j hj
      rw [move_right_eq]
      exact moveRows_keeps _ _ rightRow rightRow_length (rightRow_keeps _ _ h0 h1 h2) board
        hb.1 hc i j hi hj
    · intro i hi j hj
      rw [move_up_eq]
      exact moveCols_keeps _ _ merge_row merge_row_length (merge_row_keeps _ _ h0 h1 h2) board
        hb.1 hc i j hi hj
    · intro i hi j hj
      rw [move_down_eq, downColumn_eq_rightRow]
      exact moveCols_keeps _ _ rightRow rightRow_length (rightRow_keeps _ _ h0 h1 h2) board
        hb.1 hc i j hi hj
  · intro p v
    exact ⟨isBoard_spawn_tile board hb.1 p v, fun i hi j hj =>
      spawn_tile_keeps (fun x => 0 ≤ x) (by norm_num) (by norm_num) board hb.1
        (fun i j hi hj => hb.2 i hi j hj) p v i j hi hj⟩
  · intro history hh
    cases history with
    | nil => exact ⟨hb, hh⟩
    | cons top rest =>
      exact ⟨hh top (List.mem_cons_self _ _), fun S hS => hh S (List.mem_cons_of_mem _ hS)⟩

theorem operations_keep_good_boards_in_range_witness :
    goodBoard [[0, 2, 0, 0], [2, 2, 4, 0], [2, 0, 0, 8], [2, 4, 4, 4]] ∧
      (∀ i, i < 4 → ∀ j, j < 4 →
        cell [[0, 2, 0, 0], [2, 2, 4, 0], [2, 0, 0, 8], [2, 4, 4, 4]] i j < 1073741824) ∧
      (goodBoard (move_left [[0, 2, 0, 0], [2, 2, 4, 0], [2, 0, 0, 8], [2, 4, 4, 4]]).2 ∧
        goodBoard (move_right [[0, 2, 0, 0], [2, 2, 4, 0], [2, 0, 0, 8], [2, 4, 4, 4]]).2 ∧
        goodBoard (move_up [[0, 2, 0, 0], [2, 2, 4, 0], [2, 0, 0, 8], [2, 4, 4, 4]]).2 ∧
        goodBoard (move_down [[0, 2, 0, 0], [2, 2, 4, 0], [2, 0, 0, 8], [2, 4, 4, 4]]).2) ∧
      (∀ (p : Nat) (v : Int),
        goodBoard (spawn_tile [[0, 2, 0, 0], [2, 2, 4, 0], [2, 0, 0, 8], [2, 4, 4, 4]] p v)) :=
  ⟨by decide, by decide,
    (operations_keep_good_boards_in_range [[0, 2, 0, 0], [2, 2, 4, 0], [2, 0, 0, 8], [2, 4, 4, 4]]
      (by decide)).2.1 (by decide),
    (operations_keep_good_boards_in_range [[0, 2, 0, 0], [2, 2, 4, 0], [2, 0, 0, 8], [2, 4, 4, 4]]
      (by decide)).2.2.1⟩

/-! ## The score and the moves -/

/-- C18: on a 4x4 board, `compute_score` of the board after each of
`move_left`, `move_right`, `move_up` and `move_down` equals `compute_score` of
the board before the move; the score is the sum of all cells as a 32-bit
`int`, and the equation holds also where a doubling or the sum overflows. -/
theorem moves_keep_score (board : Board) (hb : isBoard board) :
    compute_score (move_left board).2 = compute_score board ∧
      compute_score (move_right board).2 = compute_score board ∧
      compute_score (move_up board).2 = compute_score board ∧
      compute_score (move_down board).2 = compute_score board ∧
      compute_score board = wrap32 ((board.map List.sum).sum) := by
  refine ⟨?_, ?_, ?_, ?_, compute_score_eq board⟩
  · rw [move_left_eq, moveRows_eq]
    exact compute_score_map merge_row merge_row_sum_mod board
  · rw [move_right_eq, moveRows_eq]
    exact compute_score_map rightRow rightRow_sum_mod board
  · rw [move_up_eq]
    exact compute_score_moveCols merge_row merge_row_length merge_row_sum_mod board hb
  · rw [move_down_eq, downColumn_eq_rightRow]
    exact compute_score_moveCols rightRow rightRow_length rightRow_sum_mod board hb

theorem moves_keep_score_witness :
    isBoard [[1073741824, 1073741824, 0, 0], [2, 2, 4, 0], [2, 0, 0, 8], [2, 4, 4, 4]] ∧
      compute_score [[0, 2, 0, 0], [2, 2, 4, 0], [2, 0, 0, 8], [2, 4, 4, 4]] = 34 ∧
      compute_score [[1073741824, 1073741824, 0, 0], [2, 2, 4, 0], [2, 0, 0, 8], [2, 4, 4, 4]]
        = -2147483616 ∧
      (move_left [[1073741824, 1073741824, 0, 0], [2, 2, 4, 0], [2, 0, 0, 8], [2, 4, 4, 4]]).2
        = [[-2147483648, 0, 0, 0], [4, 4, 0, 0], [2, 8, 0, 0], [2, 8, 4, 0]] ∧
      (compute_score
          (move_left [[1073741824, 1073741824, 0, 0], [2, 2, 4, 0], [2, 0, 0, 8], [2, 4, 4, 4]]).2
          = compute_score
            [[1073741824, 1073741824, 0, 0], [2, 2, 4, 0], [2, 0, 0, 8], [2, 4, 4, 4]] ∧
        compute_score
          (move_right [[1073741824, 1073741824, 0, 0], [2, 2, 4, 0], [2, 0, 0, 8], [2, 4, 4, 4]]).2
          = compute_score
            [[1073741824, 1073741824, 0, 0], [2, 2, 4, 0], [2, 0, 0, 8], [2, 4, 4, 4]] ∧
        compute_score
          (move_up [[1073741824, 1073741824, 0, 0], [2, 2, 4, 0], [2, 0, 0, 8], [2, 4, 4, 4]]).2
          = compute_score
            [[1073741824, 1073741824, 0, 0], [2, 2, 4, 0], [2, 0, 0, 8], [2, 4, 4, 4]] ∧
        compute_score
          (move_down [[1073741824, 1073741824, 0, 0], [2, 2, 4, 0], [2, 0, 0, 8], [2, 4, 4, 4]]).2
          = compute_score
            [[1073741824, 1073741824, 0, 0], [2, 2, 4, 0], [2, 0, 0, 8], [2, 4, 4, 4]] ∧
        compute_score [[1073741824, 1073741824, 0, 0], [2, 2, 4, 0], [2, 0, 0, 8], [2, 4, 4, 4]]
          = wrap32 (([[1073741824, 1073741824, 0, 0], [2, 2, 4, 0], [2, 0, 0, 8], [2, 4, 4, 4]] :
              Board).map List.sum).sum) :=
  ⟨by decide, by decide, by decide, by decide,
    moves_keep_score [[1073741824, 1073741824, 0, 0], [2, 2, 4, 0], [2, 0, 0, 8], [2, 4, 4, 4]]
      (by decide)⟩

/-- C19: on a 4x4 board `B`, `move_up` on the transpose of `B` gives the
flag of `move_left` on `B` and the transpose of its board, and `move_down` on
the transpose of `B` gives the flag of `move_right` on `B` and the transpose of
its board. -/
theorem column_moves_are_transposed_row_moves (board : Board) (hb : isBoard board) :
    move_up (transposeBoard board)
        = ((move_left board).1, transposeBoard (move_left board).2) ∧
      move_down (transposeBoard board)
        = ((move_right board).1, transposeBoard (move_right board).2) := by
  constructor
  · rw [move_up_eq, move_left_eq]
    exact moveCols_transpose merge_row merge_row_length board hb
  · rw [move_down_eq, move_right_eq, downColumn_eq_rightRow]
    exact moveCols_transpose rightRow rightRow_length board hb

theorem column_moves_are_transposed_row_moves_witness :
    isBoard [[0, 2, 0, 0], [2, 2, 4, 0], [2, 0, 0, 8], [2, 4, 4, 4]] ∧
      transposeBoard [[0, 2, 0, 0], [2, 2, 4, 0], [2, 0, 0, 8], [2, 4, 4, 4]]
        = [[0, 2, 2, 2], [2, 2, 0, 4], [0, 4, 0, 4], [0, 0, 8, 4]] ∧
      (move_up (transposeBoard [[0, 2, 0, 0], [2, 2, 4, 0], [2, 0, 0, 8], [2, 4, 4, 4]])
          = ((move_left [[0, 2, 0, 0], [2, 2, 4, 0], [2, 0, 0, 8], [2, 4, 4, 4]]).1,
              transposeBoard
                (move_left [[0, 2, 0, 0], [2, 2, 4, 0], [2, 0, 0, 8], [2, 4, 4, 4]]).2) ∧
        move_down (transposeBoard [[0, 2, 0, 0], [2, 2, 4, 0], [2, 0, 0, 8], [2, 4, 4, 4]])
          = ((move_right [[0, 2, 0, 0], [2, 2, 4, 0], [2, 0, 0, 8], [2, 4, 4, 4]]).1,
              transposeBoard
                (move_right [[0, 2, 0, 0], [2, 2, 4, 0], [2, 0, 0, 8], [2, 4, 4, 4]]).2)) :=
  ⟨by decide, by decide,
    column_moves_are_transposed_row_moves [[0, 2, 0, 0], [2, 2, 4, 0], [2, 0, 0, 8], [2, 4, 4, 4]]
      (by decide)⟩

/-! ## The spawned tile and the tile values -/

/-- C17: with the position draw `p` below the number of empty cells of a
4x4 board and the value draw `v`, `spawn_tile` writes into the empty cell
number `p` of the row-major scan (row 0 columns 0 to 3, then row 1, and so on);
the value written is 4 exactly when `v = 1` and 2 for every other `v`; no other
cell changes. -/
theorem spawn_tile_position_and_value (board : Board) (hb : isBoard board) (p : Nat) (v : Int)
    (hp : p < (emptyCells board).length) :
    scanOrder = [(0, 0), (0, 1), (0, 2), (0, 3), (1, 0), (1, 1), (1, 2), (1, 3),
        (2, 0), (2, 1), (2, 2), (2, 3), (3, 0), (3, 1), (3, 2), (3, 3)] ∧
      emptyCells board = scanOrder.filter (fun rc => decide (cell board rc.1 rc.2 = 0)) ∧
      ∃ r c, (scanOrder.filter (fun rc => decide (cell board rc.1 rc.2 = 0)))[p]? = some (r, c) ∧
        cell board r c = 0 ∧
        spawn_tile board p v = setCell board r c (if v = 1 then 4 else 2) ∧
        (cell (spawn_tile board p v) r c = 4 ↔ v = 1) ∧
        (v ≠ 1 → cell (spawn_tile board p v) r c = 2) ∧
        ∀ i j, (i ≠ r ∨ j ≠ c) → cell (spawn_tile board p v) i j = cell board i j := by
  have hne : emptyCells board ≠ [] := by
    intro h
    rw [h] at hp
    exact Nat.not_lt_zero _ hp
  have hs := spawn_tile_some board p v hne hp
  obtain ⟨hr, hc, hcell⟩ := (mem_emptyCells board _).1 (List.getElem_mem hp)
  have hval : cell (spawn_tile board p v) ((emptyCells board)[p]).1 ((emptyCells board)[p]).2
      = if v = 1 then 4 else 2 := by
    rw [hs, cell_setCell board hb _ _ hr hc, if_pos ⟨rfl, rfl⟩]
  refine ⟨by decide, emptyCells_eq board, ((emptyCells board)[p]).1, ((emptyCells board)[p]).2,
    ?_, hcell, hs, ?_, ?_, ?_⟩
  · rw [← emptyCells_eq board, List.getElem?_eq_getElem hp]
  · rw [hval]
    by_cases hv : v = 1
    · simp [hv]
    · simp [hv]
  · intro hv
    rw [hval, if_neg hv]
  · intro i j hij
    rw [hs, cell_setCell board hb _ _ hr hc, if_neg]
    rintro ⟨h1, h2⟩
    rcases hij with h | h
    · exact h h1
    · exact h h2

theorem spawn_tile_position_and_value_witness :
    isBoard [[0, 2, 0, 0], [2, 2, 4, 0], [2, 0, 0, 8], [2, 4, 4, 4]] ∧
      3 < (emptyCells [[0, 2, 0, 0], [2, 2, 4, 0], [2, 0, 0, 8], [2, 4, 4, 4]]).length ∧
      emptyCells [[0, 2, 0, 0], [2, 2, 4, 0], [2, 0, 0, 8], [2, 4, 4, 4]]
        = [(0, 0), (0, 2), (0, 3), (1, 3), (2, 1), (2, 2)] ∧
      spawn_tile [[0, 2, 0, 0], [2, 2, 4, 0], [2, 0, 0, 8], [2, 4, 4, 4]] 3 7
        = [[0, 2, 0, 0], [2, 2, 4, 2], [2, 0, 0, 8], [2, 4, 4, 4]] ∧
      emptyCells [[0, 2, 0, 0], [2, 2, 4, 0], [2, 0, 0, 8], [2, 4, 4, 4]]
        = scanOrder.filter (fun rc =>
            decide (cell [[0, 2, 0, 0], [2, 2, 4, 0], [2, 0, 0, 8], [2, 4, 4, 4]] rc.1 rc.2 = 0)) :=
  ⟨by decide, by decide, by decide, by decide,
    (spawn_tile_position_and_value [[0, 2, 0, 0], [2, 2, 4, 0], [2, 0, 0, 8], [2, 4, 4, 4]]
      (by decide) 3 7 (by decide)).2.1⟩

/-- C20 (as stated, refuted): on the board with `2^30, 2^30, 0, 0` in its
first row and zeros elsewhere every cell is 0 or a power of two, and
`move_left` leaves `-2^31` in its first cell, which is neither: the doubling
overflows the 32-bit `int`. -/
theorem move_left_breaks_tiles_on_overflow :
    isBoard [[1073741824, 1073741824, 0, 0], [0, 0, 0, 0], [0, 0, 0, 0], [0, 0, 0, 0]] ∧
      (∀ i j, i < 4 → j < 4 →
        isTile (cell [[1073741824, 1073741824, 0, 0], [0, 0, 0, 0], [0, 0, 0, 0], [0, 0, 0, 0]]
          i j)) ∧
      cell (move_left
          [[1073741824, 1073741824, 0, 0], [0, 0, 0, 0], [0, 0, 0, 0], [0, 0, 0, 0]]).2 0 0
        = -2147483648 ∧
      ¬ isTile (cell (move_left
          [[1073741824, 1073741824, 0, 0], [0, 0, 0, 0], [0, 0, 0, 0], [0, 0, 0, 0]]).2 0 0) := by
  have hcell : cell (move_left
      [[1073741824, 1073741824, 0, 0], [0, 0, 0, 0], [0, 0, 0, 0], [0, 0, 0, 0]]).2 0 0
      = -2147483648 := by decide
  refine ⟨by decide, ?_, hcell, ?_⟩
  · intro i j hi hj
    have h : ∀ i, i < 4 → ∀ j, j < 4 →
        cell [[1073741824, 1073741824, 0, 0], [0, 0, 0, 0], [0, 0, 0, 0], [0, 0, 0, 0]] i j = 0 ∨
          cell [[1073741824, 1073741824, 0, 0], [0, 0, 0, 0], [0, 0, 0, 0], [0, 0, 0, 0]] i j
            = 1073741824 := by
      decide
    rcases h i hi j hj with e | e <;> rw [e]
    · exact Or.inl rfl
    · exact Or.inr ⟨30, by omega, by norm_num⟩
  · rw [hcell]
    rintro (h | ⟨k, _, h⟩)
    · omega
    · have hpos : (0 : Int) < 2 ^ k := by positivity
      omega

/-- C20 (amended): when every cell of a 4x4 board is 0 or a power of two
`2^k` with `k ≥ 1` and every cell is below `2^30`, every cell is 0 or a power
of two after each of `move_left`, `move_right`, `move_up` and `move_down`;
after `spawn_tile` with any draws the same holds without the bound. -/
theorem operations_keep_tiles_in_range (board : Board) (hb : isBoard board)
    (ht : ∀ i j, i < 4 → j < 4 → isTile (cell board i j)) :
    ((∀ i j, i < 4 → j < 4 → cell board i j < 1073741824) →
        (∀ i j, i < 4 → j < 4 → isTile (cell (move_left board).2 i j)) ∧
          (∀ i j, i < 4 → j < 4 → isTile (cell (move_right board).2 i j)) ∧
          (∀ i j, i < 4 → j < 4 → isTile (cell (move_up board).2 i j)) ∧
          (∀ i j, i < 4 → j < 4 → isTile (cell (move_down board).2 i j))) ∧
      (∀ (p : Nat) (v : Int) (i j : Nat), i < 4 → j < 4 →
        isTile (cell (spawn_tile board p v) i j)) := by
  refine ⟨fun hsmall => ?_, ?_⟩
  · have h1 : ∀ y : Int, isTile y ∧ y < 1073741824 → isTile y := fun y hy => hy.1
    have hc : ∀ i j, i < 4 → j < 4 → isTile (cell board i j) ∧ cell board i j < 1073741824 :=
      fun i j hi hj => ⟨ht i j hi hj, hsmall i j hi hj⟩
    refine ⟨?_, ?_, ?_, ?_⟩
    · rw [move_left_eq]
      exact moveRows_keeps _ isTile merge_row merge_row_length
        (merge_row_keeps _ isTile isTile_zero h1 isTile_double) board hb hc
    · rw [move_right_eq]
      exact moveRows_keeps _ isTile rightRow rightRow_length
        (rightRow_keeps _ isTile isTile_zero h1 isTile_double) board hb hc
    · rw [move_up_eq]
      exact moveCols_keeps _ isTile merge_row merge_row_length
        (merge_row_keeps _ isTile isTile_zero h1 isTile_double) board hb hc
    · rw [move_down_eq, downColumn_eq_rightRow]
      exact moveCols_keeps _ isTile rightRow rightRow_length
        (rightRow_keeps _ isTile isTile_zero h1 isTile_double) board hb hc
  · intro p v
    exact spawn_tile_keeps isTile isTile_two isTile_four board hb ht p v

theorem operations_keep_tiles_in_range_witness :
    isBoard [[0, 2, 0, 0], [2, 2, 4, 0], [2, 0, 0, 4], [2, 4, 4, 4]] ∧
      (∀ i j, i < 4 → j < 4 →
        isTile (cell [[0, 2, 0, 0], [2, 2, 4, 0], [2, 0, 0, 4], [2, 4, 4, 4]] i j)) ∧
      (∀ i j, i < 4 → j < 4 →
        cell [[0, 2, 0, 0], [2, 2, 4, 0], [2, 0, 0, 4], [2, 4, 4, 4]] i j < 1073741824) ∧
      (move_left [[0, 2, 0, 0], [2, 2, 4, 0], [2, 0, 0, 4], [2, 4, 4, 4]]).2
        = [[2, 0, 0, 0], [4, 4, 0, 0], [2, 4, 0, 0], [2, 8, 4, 0]] ∧
      ∀ i j, i < 4 → j < 4 →
        isTile (cell (move_left [[0, 2, 0, 0], [2, 2, 4, 0], [2, 0, 0, 4], [2, 4, 4, 4]]).2 i j) := by
  have hb : isBoard [[0, 2, 0, 0], [2, 2, 4, 0], [2, 0, 0, 4], [2, 4, 4, 4]] := by decide
  have h : ∀ i, i < 4 → ∀ j, j < 4 →
      cell [[0, 2, 0, 0], [2, 2, 4, 0], [2, 0, 0, 4], [2, 4, 4, 4]] i j = 0 ∨
        cell [[0, 2, 0, 0], [2, 2, 4, 0], [2, 0, 0, 4], [2, 4, 4, 4]] i j = 2 ∨
        cell [[0, 2, 0, 0], [2, 2, 4, 0], [2, 0, 0, 4], [2, 4, 4, 4]] i j = 4 := by
    decide
  have ht : ∀ i j, i < 4 → j < 4 →
      isTile (cell [[0, 2, 0, 0], [2, 2, 4, 0], [2, 0, 0, 4], [2, 4, 4, 4]] i j) := by
    intro i j hi hj
    rcases h i hi j hj with e | e | e <;> rw [e]
    · exact isTile_zero
    · exact isTile_two
    · exact isTile_four
  have hs : ∀ i j, i < 4 → j < 4 →
      cell [[0, 2, 0, 0], [2, 2, 4, 0], [2, 0, 0, 4], [2, 4, 4, 4]] i j < 1073741824 := by
    intro i j hi hj
    rcases h i hi j hj with e | e | e <;> rw [e] <;> omega
  exact ⟨hb, ht, hs, by decide, ((operations_keep_tiles_in_range _ hb ht).1 hs).1⟩

end Game2048
